import Mathlib

/-!
Verification development for the OrderedVector / packed_memory_array repository.

The backing store is modelled as a list of optional machine integers
(modelled as unbounded Int, since the repository instantiates the templates
at int and never relies on overflow).  C++ float arithmetic in the density
thresholds and in rearrange_items is modelled exactly over the rationals;
std::round on the non-negative arguments arising here is floor (x + 1/2).
Loops are modelled by structurally recursive functions with an explicit
fuel argument chosen at each call site to be provably sufficient, so that
all definitions evaluate inside the kernel.
-/

set_option maxRecDepth 8000

abbrev Items := List (Option Int)

/-- Read of items[i]; out-of-range reads (undefined behaviour in C++) yield none. -/
def slotAt (s : Items) (i : Int) : Option Int :=
  if 0 ≤ i then s.getD i.toNat none else none

/-- Write of items[i]; out-of-range writes are modelled as no-ops. -/
def setSlot (s : Items) (i : Int) (v : Option Int) : Items :=
  if 0 ≤ i then s.set i.toNat v else s

/-- std::swap(items[i], items[j]). -/
def swapSlots (s : Items) (i j : Int) : Items :=
  setSlot (setSlot s i (slotAt s j)) j (slotAt s i)

/-- count_items(begin, end): number of occupied slots in [b, e). -/
def count_items (s : Items) (b e : Int) : Nat :=
  ((s.drop b.toNat).take (e - b).toNat).countP (fun o => o.isSome)

/-- The sequence of occupied values, read left to right. -/
def vals (s : Items) : List Int := s.filterMap id

/-- tree_height(): (int)std::log2(items.size() / chunk_size); exact on the
power-of-two capacities the store maintains. -/
def tree_height (chunk : Nat) (s : Items) : Nat :=
  Nat.log2 (s.length / chunk)

/-- Lower density threshold 0.5 - 0.25 * depth / tree_height, float arithmetic
modelled exactly over the rationals. -/
def lower_t (chunk : Nat) (s : Items) (d : Nat) : ℚ :=
  1/2 - 1/4 * ((d : ℚ) / (tree_height chunk s : ℚ))

/-- Upper density threshold 0.75 + 0.25 * depth / tree_height. -/
def upper_t (chunk : Nat) (s : Items) (d : Nat) : ℚ :=
  3/4 + 1/4 * ((d : ℚ) / (tree_height chunk s : ℚ))

/-- std::round for the non-negative arguments arising in rearrange_items. -/
def roundQ (x : ℚ) : Int := Int.floor (x + 1/2)

/-- Skip-empty loop of index_of: for (; mid <= high && !items[mid]; ++mid). -/
def skipUp (s : Items) (high : Int) : Nat → Int → Int
  | 0, m => m
  | fuel+1, m => if m ≤ high ∧ (slotAt s m).isNone then skipUp s high fuel (m+1) else m

/-- Skip-empty loop of index_of: for (; mid >= low && !items[mid]; --mid). -/
def skipDown (s : Items) (low : Int) : Nat → Int → Int
  | 0, m => m
  | fuel+1, m => if low ≤ m ∧ (slotAt s m).isNone then skipDown s low fuel (m-1) else m

/-- Gap scan of closest_gap / shifted_right: first j at or after the start index
that is past the end of the array or empty. -/
def gapRight (s : Items) : Nat → Int → Int
  | 0, j => j
  | fuel+1, j =>
    if j < (s.length : Int) ∧ (slotAt s j).isSome then gapRight s fuel (j+1) else j

/-- Gap scan of closest_gap / shifted_left: first j at or before the start index
that is negative or empty. -/
def gapLeft (s : Items) : Nat → Int → Int
  | 0, j => j
  | fuel+1, j =>
    if 0 ≤ j ∧ (slotAt s j).isSome then gapLeft s fuel (j-1) else j

/-- shift_right(from, to): for (; to > from; --to) swap(items[to], items[to-1]). -/
def shift_right_go : Items → Int → Nat → Int → Items
  | s, _, 0, _ => s
  | s, f, fuel+1, t =>
    if f < t then shift_right_go (swapSlots s t (t - 1)) f fuel (t - 1) else s

def shift_right (s : Items) (f t : Int) : Items :=
  shift_right_go s f (t - f).toNat t

/-- shift_left(from, till): for (; till < from; ++till) swap(items[till], items[till+1]). -/
def shift_left_go : Items → Int → Nat → Int → Items
  | s, _, 0, _ => s
  | s, f, fuel+1, t =>
    if t < f then shift_left_go (swapSlots s t (t + 1)) f fuel (t + 1) else s

def shift_left (s : Items) (f t : Int) : Items :=
  shift_left_go s f (f - t).toNat t

namespace pma

/-- Body of the binary-search loop of packed_memory_array::index_of. -/
def index_of_go (s : Items) (t : Int) : Nat → Int → Int → Int
  | 0, low, _ => low
  | fuel+1, low, high =>
    if low ≤ high then
      let mid0 := low + (high - low) / 2
      let m1 := skipUp s high ((high + 1 - mid0).toNat + 1) mid0
      let midO : Option Int :=
        if m1 > high then
          let m2 := skipDown s low ((mid0 + 1 - low).toNat + 1) mid0
          if m2 < low then none else some m2
        else some m1
      match midO with
      | none => low
      | some mid =>
        let v := (slotAt s mid).getD 0
        if v < t then index_of_go s t fuel (mid + 1) high
        else if t < v then index_of_go s t fuel low (mid - 1)
        else mid
    else
      if low == (s.length : Int) then low - 1 else low

/-- packed_memory_array::index_of. -/
def index_of (s : Items) (t : Int) : Int :=
  index_of_go s t (s.length + 2) 0 ((s.length : Int) - 1)

/-- Forward scan of successor: skip empty slots and occupied values at most t. -/
def succ_from (s : Items) (t : Int) : Nat → Int → Int
  | 0, i => i
  | fuel+1, i =>
    if i < (s.length : Int) ∧ ((slotAt s i).isNone ∨ (slotAt s i).getD 0 ≤ t) then
      succ_from s t fuel (i+1)
    else i

/-- packed_memory_array::successor. -/
def successor (s : Items) (t : Int) : Int :=
  let i := succ_from s t (s.length + 1) (index_of s t)
  if i ≥ (s.length : Int) then t else (slotAt s i).getD 0

/-- packed_memory_array::closest_gap; returns the gap index and the on_right flag. -/
def closest_gap (s : Items) (i : Int) : Int × Bool :=
  let cr := gapRight s (s.length + 1) (i + 1)
  let cl := gapLeft s (s.length + 1) (i - 1)
  if cl < 0 then (cr, true)
  else if cr ≥ (s.length : Int) then (cl, false)
  else if cr - i ≤ i - cl then (cr, true) else (cl, false)

/-- packed_memory_array::insert(t, i): local insertion at the index returned by
index_of, shifting a run of occupied slots into the nearest gap if needed. -/
def insert (s : Items) (t : Int) (i : Int) : Items :=
  match slotAt s i with
  | none => setSlot s i (some t)
  | some v =>
    if v < t ∧ i + 1 < (s.length : Int) ∧ (slotAt s (i+1)).isNone then
      setSlot s (i+1) (some t)
    else if t < v ∧ 0 ≤ i - 1 ∧ (slotAt s (i-1)).isNone then
      setSlot s (i-1) (some t)
    else
      let g := closest_gap s i
      let i2 := if (g.2 ∧ v < t) ∨ (¬ g.2 ∧ t < v) then (if g.2 then i + 1 else i - 1) else i
      let s2 := if g.2 then shift_right s i2 g.1 else shift_left s i2 g.1
      setSlot s2 i2 (some t)

/-- Loop of get_items: collect and clear the occupied slots of [b, e) in order. -/
def get_items_go : Items → List Int → Nat → Int → List Int × Items
  | s, acc, 0, _ => (acc.reverse, s)
  | s, acc, fuel+1, i =>
    match slotAt s i with
    | some v => get_items_go (setSlot s i none) (v :: acc) fuel (i+1)
    | none => get_items_go s acc fuel (i+1)

/-- packed_memory_array::get_items. -/
def get_items (s : Items) (b e : Int) : List Int × Items :=
  get_items_go s [] (e - b).toNat b

/-- Loop of rearrange_items: write each buffered item at b + round(pos),
advancing pos by step after each write. -/
def placeLoop : Items → Int → ℚ → ℚ → List Int → Items
  | s, _, _, _, [] => s
  | s, b, step, pos, x :: xs =>
    placeLoop (setSlot s (b + roundQ pos) (some x)) b step (pos + step) xs

/-- packed_memory_array::rearrange_items with step = (end - begin) / buffer.size(). -/
def rearrange_items (s : Items) (b e : Int) (buf : List Int) : Items :=
  placeLoop s b (((e - b : Int) : ℚ) / (buf.length : ℚ)) 0 buf

/-- Sibling window begin of scan: right sibling if begin/(end-begin) is even. -/
def sib_begin (b e : Int) : Int :=
  if (b / (e - b)) % 2 == 0 then e else b - (e - b)

/-- Parent window of scan (the union of the window and its sibling). -/
def par_begin (b e : Int) : Int :=
  if (b / (e - b)) % 2 == 0 then b else b - (e - b)

def par_end (b e : Int) : Int :=
  if (b / (e - b)) % 2 == 0 then e + (e - b) else e

/-- Combined density of the window and its sibling as computed by scan. -/
def scan_density (s : Items) (b e : Int) (accum : Nat) : ℚ :=
  ((accum + count_items s (sib_begin b e) (sib_begin b e + (e - b)) : Nat) : ℚ) /
    (((e - b) * 2 : Int) : ℚ)

/-- Rebalance of the parent window: gather its items and spread them evenly. -/
def rebalance_parent (s : Items) (b e : Int) : Items :=
  let r := get_items s (par_begin b e) (par_end b e)
  rearrange_items r.2 (par_begin b e) (par_end b e) r.1

/-- Depth-0 case of scan: gather everything, resize, and redistribute. -/
def scan_root (chunk : Nat) (s : Items) (b e : Int) (accum : Nat) : Items :=
  let density := scan_density s b e accum
  let r := get_items s 0 (s.length : Int)
  let s1 :=
    if density > upper_t chunk s 0 then r.2 ++ List.replicate r.2.length none
    else if density < lower_t chunk s 0 ∧ s.length > chunk * 2 then r.2.take (r.2.length / 2)
    else r.2
  if r.1 ≠ [] then rearrange_items s1 0 (s1.length : Int) r.1 else s1

/-- packed_memory_array::scan, structurally recursive on the depth. -/
def scan (chunk : Nat) : Nat → Items → Int → Int → Nat → Items
  | 0, s, b, e, accum =>
    if lower_t chunk s 0 ≤ scan_density s b e accum ∧
        scan_density s b e accum ≤ upper_t chunk s 0 then
      rebalance_parent s b e
    else scan_root chunk s b e accum
  | d+1, s, b, e, accum =>
    if lower_t chunk s (d+1) ≤ scan_density s b e accum ∧
        scan_density s b e accum ≤ upper_t chunk s (d+1) then
      rebalance_parent s b e
    else
      scan chunk d s (par_begin b e) (par_end b e)
        (accum + count_items s (sib_begin b e) (sib_begin b e + (e - b)))

/-- packed_memory_array::push. -/
def push (chunk : Nat) (s : Items) (t : Int) : Items :=
  let i := index_of s t
  let bb := (i / (chunk : Int)) * (chunk : Int)
  let be := bb + (chunk : Int)
  let count := count_items s bb be + 1
  let density : ℚ := (count : ℚ) / ((be - bb : Int) : ℚ)
  if density > upper_t chunk s (tree_height chunk s) then
    let s2 := scan chunk (tree_height chunk s - 1) s bb be count
    insert s2 t (index_of s2 t)
  else insert s t i

/-- packed_memory_array::remove. -/
def remove (chunk : Nat) (s : Items) (t : Int) : Items :=
  let i := index_of s t
  if (slotAt s i).isNone ∨ ¬ ((slotAt s i).getD 0 = t) then s
  else
    let s1 := setSlot s i none
    let bb := (i / (chunk : Int)) * (chunk : Int)
    let be := bb + (chunk : Int)
    let count := count_items s1 bb be
    let density : ℚ := (count : ℚ) / ((be - bb : Int) : ℚ)
    if density < lower_t chunk s1 (tree_height chunk s1) then
      scan chunk (tree_height chunk s1 - 1) s1 bb be count
    else s1

/-- The store as constructed: capacity chunk_size * 2, all slots empty. -/
def emptyStore (chunk : Nat) : Items := List.replicate (chunk * 2) none

end pma

namespace OV

/-- Binary-search loop of OrderedVector::index_of; identical to the
packed_memory_array loop except that the final clamp tests low >= items.size()
instead of low == items.size(). -/
def index_of_go (s : Items) (t : Int) : Nat → Int → Int → Int
  | 0, low, _ => low
  | fuel+1, low, high =>
    if low ≤ high then
      let mid0 := low + (high - low) / 2
      let m1 := skipUp s high ((high + 1 - mid0).toNat + 1) mid0
      let midO : Option Int :=
        if m1 > high then
          let m2 := skipDown s low ((mid0 + 1 - low).toNat + 1) mid0
          if m2 < low then none else some m2
        else some m1
      match midO with
      | none => low
      | some mid =>
        let v := (slotAt s mid).getD 0
        if v < t then index_of_go s t fuel (mid + 1) high
        else if t < v then index_of_go s t fuel low (mid - 1)
        else mid
    else
      if low ≥ (s.length : Int) then low - 1 else low

/-- OrderedVector::index_of. -/
def index_of (s : Items) (t : Int) : Int :=
  index_of_go s t (s.length + 2) 0 ((s.length : Int) - 1)

/-- OrderedVector::shifted_right: find the first empty slot at or after index
and shift the run before it one step right; false if there is none. -/
def shifted_right (s : Items) (index : Int) : Bool × Items :=
  let j := gapRight s (s.length + 1) index
  if j ≥ (s.length : Int) then (false, s)
  else (true, shift_right_go s index (j - index).toNat j)

/-- OrderedVector::shifted_left. -/
def shifted_left (s : Items) (index : Int) : Bool × Items :=
  let j := gapLeft s (s.length + 1) index
  if j < 0 then (false, s)
  else (true, shift_left_go s index (index - j).toNat j)

/-- Loop of OrderedVector::rearrange_items: place buffer items at stride
new_density, pairing two items per stop while remainder is positive. -/
def rearrO_go (buffer : List Int) : Nat → Items → Int → Int → Int → Nat → Int → Items
  | 0, s, _, _, _, _, _ => s
  | fuel+1, s, e, nd, i, b_iter, rem =>
    if i < e ∧ b_iter < buffer.length then
      let s1 := setSlot s i (some (buffer.getD b_iter 0))
      if rem > 0 then
        rearrO_go buffer fuel (setSlot s1 (i+1) (some (buffer.getD (b_iter+1) 0)))
          e nd (i + nd) (b_iter + 2) (rem - 1)
      else rearrO_go buffer fuel s1 e nd (i + nd) (b_iter + 1) rem
    else s

/-- OrderedVector::rearrange_items with integer stride
new_density = ceil(length / buffer.size()). -/
def rearrange_items (s : Items) (b e : Int) : Items :=
  let r := pma.get_items s b e
  let n : Int := r.1.length
  let nd : Int := (e - b + n - 1) / n
  let rem : Int := n - (e - b) / nd
  rearrO_go r.1 ((e - b).toNat + 1) r.2 e nd b 0 rem

/-- OrderedVector::scan, structurally recursive on the depth.  The depth-0
branch comes first as in the source; the in-bounds test uses density < upper. -/
def scan (chunk : Nat) : Nat → Items → Int → Int → Items
  | 0, s, b, e =>
    let count := count_items s b e
    let density : ℚ := (count : ℚ) / ((e - b : Int) : ℚ)
    let s1 := if density ≥ upper_t chunk s 0 then s ++ List.replicate s.length none else s
    if count > 0 then rearrange_items s1 b e else s1
  | d+1, s, b, e =>
    let count := count_items s b e
    let density : ℚ := (count : ℚ) / ((e - b : Int) : ℚ)
    if lower_t chunk s (d+1) ≤ density ∧ density < upper_t chunk s (d+1) then
      if d+1 ≠ tree_height chunk s then rearrange_items s b e else s
    else
      let dbs : Int := (s.length : Int) / (2 ^ (d+1) : Int)
      if (b / dbs) % 2 == 0 then scan chunk d s b (e + dbs)
      else scan chunk d s (b - dbs) e

/-- OrderedVector::push: local insertion via shifted_left / shifted_right with
short-circuit evaluation, then an unconditional scan of the enclosing leaf. -/
def push (chunk : Nat) (s : Items) (t : Int) : Items :=
  let i := index_of s t
  let si : Items × Int :=
    match slotAt s i with
    | none => (s, i)
    | some v =>
      if v < t then
        let r := shifted_left s i
        if r.1 then (r.2, i)
        else if (slotAt s (i+1)).isSome then ((shifted_right s (i+1)).2, i+1)
        else (s, i+1)
      else
        let r := shifted_right s i
        if r.1 then (r.2, i)
        else if (slotAt s (i-1)).isSome then ((shifted_left s (i-1)).2, i-1)
        else (s, i-1)
  let s1 := setSlot si.1 si.2 (some t)
  let bb := (si.2 / (chunk : Int)) * (chunk : Int)
  scan chunk (tree_height chunk s1) s1 bb (bb + (chunk : Int))

/-- OrderedVector::remove: returns early only when the probed slot is occupied
by a non-equivalent item; an empty probed slot falls through to the scan. -/
def remove (chunk : Nat) (s : Items) (t : Int) : Items :=
  let i := index_of s t
  if (slotAt s i).isSome ∧ ¬ ((slotAt s i).getD 0 = t) then s
  else
    let s1 := setSlot s i none
    let bb := (i / (chunk : Int)) * (chunk : Int)
    scan chunk (tree_height chunk s1) s1 bb (bb + (chunk : Int))

end OV

/-- The two mutating driver commands (INC and REM of file_handler.cpp). -/
inductive Op where
  | push : Int → Op
  | remove : Int → Op
deriving DecidableEq

/-- One driver step on a packed_memory_array store. -/
def applyOp (chunk : Nat) (s : Items) : Op → Items
  | Op.push v => pma.push chunk s v
  | Op.remove v => pma.remove chunk s v

/-- Run a sequence of driver operations left to right. -/
def runOps (chunk : Nat) : Items → List Op → Items
  | s, [] => s
  | s, o :: rest => runOps chunk (applyOp chunk s o) rest

/-- A sequence is valid when every push inserts a value with no equivalent
occupant at that moment (the pairwise non-equivalence assumption of the spec). -/
def validOps (chunk : Nat) : Items → List Op → Bool
  | _, [] => true
  | s, Op.push v :: rest =>
    !(s.contains (some v)) && validOps chunk (pma.push chunk s v) rest
  | s, Op.remove v :: rest => validOps chunk (pma.remove chunk s v) rest

/-- The store and index at the moment push calls its local insertion helper:
either the original store and index, or the rescanned store and its re-probed
index. -/
def insert_call (chunk : Nat) (s : Items) (t : Int) : Items × Int :=
  let i := pma.index_of s t
  let bb := (i / (chunk : Int)) * (chunk : Int)
  let be := bb + (chunk : Int)
  let count := count_items s bb be + 1
  let density : ℚ := (count : ℚ) / ((be - bb : Int) : ℚ)
  if density > upper_t chunk s (tree_height chunk s) then
    let s2 := pma.scan chunk (tree_height chunk s - 1) s bb be count
    (s2, pma.index_of s2 t)
  else (s, i)

/-! ### Basic facts about slots and stores -/

/-- Comparison of two slots: vacuously true unless both are occupied. -/
def slotLt : Option Int → Option Int → Bool
  | some x, some y => decide (x < y)
  | _, _ => true

/-- Ordering invariant: occupied slots, scanned left to right, are strictly
increasing. -/
def sortedStore (s : Items) : Prop :=
  ∀ i : Nat, i < s.length → ∀ j : Nat, j < s.length → i < j →
    slotLt (s.getD i none) (s.getD j none) = true

instance (s : Items) : Decidable (sortedStore s) := by
  unfold sortedStore; infer_instance

theorem slotAt_ofNat (s : Items) (i : Nat) : slotAt s (i : Int) = s.getD i none := by
  simp [slotAt]

theorem slotAt_neg (s : Items) (i : Int) (h : i < 0) : slotAt s i = none := by
  simp [slotAt, not_le.mpr h]

theorem slotAt_ge (s : Items) (i : Int) (h : (s.length : Int) ≤ i) : slotAt s i = none := by
  unfold slotAt
  have h0 : (0 : Int) ≤ i := le_trans (by positivity) h
  rw [if_pos h0, List.getD_eq_getElem?_getD, List.getElem?_eq_none, Option.getD_none]
  omega

theorem length_setSlot (s : Items) (i : Int) (v : Option Int) :
    (setSlot s i v).length = s.length := by
  unfold setSlot; split <;> simp

theorem slotAt_setSlot_self (s : Items) (i : Int) (v : Option Int)
    (h0 : 0 ≤ i) (h1 : i < (s.length : Int)) : slotAt (setSlot s i v) i = v := by
  unfold slotAt setSlot
  rw [if_pos h0, if_pos h0, List.getD_eq_getElem?_getD, List.getElem?_set_self, Option.getD_some]
  omega

theorem slotAt_setSlot_ne (s : Items) (i j : Int) (v : Option Int) (h : i ≠ j) :
    slotAt (setSlot s i v) j = slotAt s j := by
  unfold slotAt setSlot
  by_cases h0 : 0 ≤ i
  · by_cases h1 : 0 ≤ j
    · rw [if_pos h0, if_pos h1, if_pos h1]
      rw [List.getD_eq_getElem?_getD, List.getD_eq_getElem?_getD, List.getElem?_set_ne]
      omega
    · simp [h1]
  · simp [h0]

theorem length_swapSlots (s : Items) (i j : Int) :
    (swapSlots s i j).length = s.length := by
  unfold swapSlots; rw [length_setSlot, length_setSlot]

/-! ### Specifications of the skip-empty scans -/

theorem skipUp_spec (s : Items) (high : Int) :
    ∀ fuel (m : Int), (high + 1 - m).toNat < fuel → m ≤ high + 1 →
      m ≤ skipUp s high fuel m ∧ skipUp s high fuel m ≤ high + 1 ∧
      (∀ k, m ≤ k → k < skipUp s high fuel m → (slotAt s k).isNone) ∧
      (skipUp s high fuel m ≤ high → (slotAt s (skipUp s high fuel m)).isSome) := by
  intro fuel
  induction fuel with
  | zero => intro m hf; omega
  | succ f ih =>
    intro m hf hm
    rw [skipUp]
    by_cases hc : m ≤ high ∧ (slotAt s m).isNone
    · rw [if_pos hc]
      obtain ⟨h1, h2, h3, h4⟩ := ih (m + 1) (by omega) (by omega)
      refine ⟨by omega, h2, ?_, h4⟩
      intro k hk1 hk2
      rcases eq_or_lt_of_le hk1 with h | h
      · rw [← h]; exact hc.2
      · exact h3 k (by omega) hk2
    · rw [if_neg hc]
      refine ⟨le_refl m, hm, by intro k h1 h2; omega, ?_⟩
      intro hle
      rcases Decidable.not_and_iff_or_not.mp hc with h | h
      · omega
      · simpa [Option.isNone_iff_eq_none, Option.isSome_iff_ne_none] using h

theorem skipDown_spec (s : Items) (low : Int) :
    ∀ fuel (m : Int), (m + 1 - low).toNat < fuel → low - 1 ≤ m →
      skipDown s low fuel m ≤ m ∧ low - 1 ≤ skipDown s low fuel m ∧
      (∀ k, k ≤ m → skipDown s low fuel m < k → (slotAt s k).isNone) ∧
      (low ≤ skipDown s low fuel m → (slotAt s (skipDown s low fuel m)).isSome) := by
  intro fuel
  induction fuel with
  | zero => intro m hf; omega
  | succ f ih =>
    intro m hf hm
    rw [skipDown]
    by_cases hc : low ≤ m ∧ (slotAt s m).isNone
    · rw [if_pos hc]
      obtain ⟨h1, h2, h3, h4⟩ := ih (m - 1) (by omega) (by omega)
      refine ⟨by omega, h2, ?_, h4⟩
      intro k hk1 hk2
      rcases eq_or_lt_of_le hk1 with h | h
      · rw [h]; exact hc.2
      · exact h3 k (by omega) hk2
    · rw [if_neg hc]
      refine ⟨le_refl m, hm, by intro k h1 h2; omega, ?_⟩
      intro hle
      rcases Decidable.not_and_iff_or_not.mp hc with h | h
      · omega
      · simpa [Option.isNone_iff_eq_none, Option.isSome_iff_ne_none] using h

/-! ### Bounds of index_of -/

theorem pma_index_of_go_bounds (s : Items) (t : Int) (hlen : 0 < s.length) :
    ∀ fuel (low high : Int), (high + 1 - low).toNat < fuel →
      0 ≤ low → low ≤ high + 1 → high < (s.length : Int) →
      0 ≤ pma.index_of_go s t fuel low high ∧
      pma.index_of_go s t fuel low high < (s.length : Int) := by
  intro fuel
  induction fuel with
  | zero => intro low high hf; omega
  | succ f ih =>
    intro low high hf h0 h1 h2
    rw [pma.index_of_go]
    by_cases hc : low ≤ high
    · rw [if_pos hc]
      simp only
      set mid0 := low + (high - low) / 2 with hmid0
      have hmid0b : low ≤ mid0 ∧ mid0 ≤ high := by constructor <;> omega
      obtain ⟨hu1, hu2, hu3, hu4⟩ :=
        skipUp_spec s high ((high + 1 - mid0).toNat + 1) mid0 (by omega) (by omega)
      set m1 := skipUp s high ((high + 1 - mid0).toNat + 1) mid0 with hm1
      by_cases hgt : m1 > high
      · rw [if_pos hgt]
        obtain ⟨hd1, hd2, hd3, hd4⟩ :=
          skipDown_spec s low ((mid0 + 1 - low).toNat + 1) mid0 (by omega) (by omega)
        set m2 := skipDown s low ((mid0 + 1 - low).toNat + 1) mid0 with hm2
        by_cases hlt : m2 < low
        · rw [if_pos hlt]; simp only; omega
        · rw [if_neg hlt]
          simp only
          by_cases hv1 : (slotAt s m2).getD 0 < t
          · rw [if_pos hv1]
            exact ih (m2 + 1) high (by omega) (by omega) (by omega) h2
          · rw [if_neg hv1]
            by_cases hv2 : t < (slotAt s m2).getD 0
            · rw [if_pos hv2]
              exact ih low (m2 - 1) (by omega) h0 (by omega) (by omega)
            · rw [if_neg hv2]; omega
      · rw [if_neg hgt]
        simp only
        by_cases hv1 : (slotAt s m1).getD 0 < t
        · rw [if_pos hv1]
          exact ih (m1 + 1) high (by omega) (by omega) (by omega) h2
        · rw [if_neg hv1]
          by_cases hv2 : t < (slotAt s m1).getD 0
          · rw [if_pos hv2]
            exact ih low (m1 - 1) (by omega) h0 (by omega) (by omega)
          · rw [if_neg hv2]; omega
    · rw [if_neg hc]
      by_cases he : (low == (s.length : Int)) = true
      · rw [if_pos he]
        have : low = (s.length : Int) := by simpa using he
        omega
      · rw [if_neg he]
        have : low ≠ (s.length : Int) := by simpa using he
        omega

theorem OV_index_of_go_bounds (s : Items) (t : Int) (hlen : 0 < s.length) :
    ∀ fuel (low high : Int), (high + 1 - low).toNat < fuel →
      0 ≤ low → low ≤ high + 1 → high < (s.length : Int) →
      0 ≤ OV.index_of_go s t fuel low high ∧
      OV.index_of_go s t fuel low high < (s.length : Int) := by
  intro fuel
  induction fuel with
  | zero => intro low high hf; omega
  | succ f ih =>
    intro low high hf h0 h1 h2
    rw [OV.index_of_go]
    by_cases hc : low ≤ high
    · rw [if_pos hc]
      simp only
      set mid0 := low + (high - low) / 2 with hmid0
      have hmid0b : low ≤ mid0 ∧ mid0 ≤ high := by constructor <;> omega
      obtain ⟨hu1, hu2, hu3, hu4⟩ :=
        skipUp_spec s high ((high + 1 - mid0).toNat + 1) mid0 (by omega) (by omega)
      set m1 := skipUp s high ((high + 1 - mid0).toNat + 1) mid0 with hm1
      by_cases hgt : m1 > high
      · rw [if_pos hgt]
        obtain ⟨hd1, hd2, hd3, hd4⟩ :=
          skipDown_spec s low ((mid0 + 1 - low).toNat + 1) mid0 (by omega) (by omega)
        set m2 := skipDown s low ((mid0 + 1 - low).toNat + 1) mid0 with hm2
        by_cases hlt : m2 < low
        · rw [if_pos hlt]; simp only; omega
        · rw [if_neg hlt]
          simp only
          by_cases hv1 : (slotAt s m2).getD 0 < t
          · rw [if_pos hv1]
            exact ih (m2 + 1) high (by omega) (by omega) (by omega) h2
          · rw [if_neg hv1]
            by_cases hv2 : t < (slotAt s m2).getD 0
            · rw [if_pos hv2]
              exact ih low (m2 - 1) (by omega) h0 (by omega) (by omega)
            · rw [if_neg hv2]; omega
      · rw [if_neg hgt]
        simp only
        by_cases hv1 : (slotAt s m1).getD 0 < t
        · rw [if_pos hv1]
          exact ih (m1 + 1) high (by omega) (by omega) (by omega) h2
        · rw [if_neg hv1]
          by_cases hv2 : t < (slotAt s m1).getD 0
          · rw [if_pos hv2]
            exact ih low (m1 - 1) (by omega) h0 (by omega) (by omega)
          · rw [if_neg hv2]; omega
    · rw [if_neg hc]
      by_cases he : low ≥ (s.length : Int)
      · rw [if_pos he]; omega
      · rw [if_neg he]; omega

/-- C6: for every store state (any capacity of at least one slot, including the
all-empty backing array) and every probe t, index_of returns an index within
[0, capacity), in both the OrderedVector and the packed_memory_array version;
in particular the final clamp keeps the result in bounds when the search exits
with low equal to the capacity. -/
theorem claim6_index_of_bounds (s : Items) (t : Int) (hlen : 0 < s.length) :
    (0 ≤ pma.index_of s t ∧ pma.index_of s t < (s.length : Int)) ∧
    (0 ≤ OV.index_of s t ∧ OV.index_of s t < (s.length : Int)) := by
  constructor
  · exact pma_index_of_go_bounds s t hlen (s.length + 2) 0 ((s.length : Int) - 1)
      (by omega) (by omega) (by omega) (by omega)
  · exact OV_index_of_go_bounds s t hlen (s.length + 2) 0 ((s.length : Int) - 1)
      (by omega) (by omega) (by omega) (by omega)

/-- Witness for C6 at a concrete all-empty two-slot store. -/
theorem claim6_witness :
    0 < ([none, none] : Items).length ∧
    ((0 ≤ pma.index_of [none, none] 5 ∧ pma.index_of [none, none] 5 < 2) ∧
      (0 ≤ OV.index_of [none, none] 5 ∧ OV.index_of [none, none] 5 < 2)) :=
  ⟨by decide, claim6_index_of_bounds [none, none] 5 (by decide)⟩

/-! ### Sorted stores -/

theorem slotAt_some_bounds (s : Items) (i : Int) (v : Int) (h : slotAt s i = some v) :
    0 ≤ i ∧ i < (s.length : Int) := by
  unfold slotAt at h
  by_cases h0 : 0 ≤ i
  · rw [if_pos h0] at h
    refine ⟨h0, ?_⟩
    by_contra hlt
    push_neg at hlt
    rw [List.getD_eq_getElem?_getD, List.getElem?_eq_none (by omega), Option.getD_none] at h
    exact Option.noConfusion h
  · rw [if_neg h0] at h
    exact Option.noConfusion h

theorem slotAt_toNat (s : Items) (i : Int) (h : 0 ≤ i) :
    s.getD i.toNat none = slotAt s i := by
  have e := slotAt_ofNat s i.toNat
  rw [Int.toNat_of_nonneg h] at e
  exact e.symm

theorem sortedStore_lt (s : Items) (hs : sortedStore s) (i j : Int) (vi vj : Int)
    (hi : slotAt s i = some vi) (hj : slotAt s j = some vj) (hij : i < j) : vi < vj := by
  obtain ⟨hi0, hi1⟩ := slotAt_some_bounds s i vi hi
  obtain ⟨hj0, hj1⟩ := slotAt_some_bounds s j vj hj
  have h := hs i.toNat (by omega) j.toNat (by omega) (by omega)
  rw [slotAt_toNat s i hi0, slotAt_toNat s j hj0, hi, hj] at h
  simpa [slotLt] using h

/-! ### Postcondition of index_of on sorted stores -/

/-- What index_of guarantees on a sorted store: either the probe was found, or
the returned index splits the occupied slots into strictly smaller values on
the left and strictly larger values from the index on, or the search ran off
the right end and every occupied value is smaller than the probe. -/
def iPost (s : Items) (t : Int) (r : Int) : Prop :=
  slotAt s r = some t ∨
  ((∀ p v, slotAt s p = some v → p < r → v < t) ∧
    (∀ p v, slotAt s p = some v → r ≤ p → t < v)) ∨
  (r = (s.length : Int) - 1 ∧ ∀ p v, slotAt s p = some v → v < t)

theorem index_of_go_post (s : Items) (t : Int) (hs : sortedStore s) (hlen : 0 < s.length) :
    ∀ fuel (low high : Int), (high + 1 - low).toNat < fuel →
      0 ≤ low → low ≤ high + 1 → high < (s.length : Int) →
      (∀ p v, slotAt s p = some v → p < low → v < t) →
      (∀ p v, slotAt s p = some v → high < p → t < v) →
      iPost s t (pma.index_of_go s t fuel low high) := by
  intro fuel
  induction fuel with
  | zero => intro low high hf; omega
  | succ f ih =>
    intro low high hf h0 h1 h2 hL hR
    rw [pma.index_of_go]
    by_cases hc : low ≤ high
    · rw [if_pos hc]
      simp only
      set mid0 := low + (high - low) / 2 with hmid0
      have hmid0b : low ≤ mid0 ∧ mid0 ≤ high := by constructor <;> omega
      obtain ⟨hu1, hu2, hu3, hu4⟩ :=
        skipUp_spec s high ((high + 1 - mid0).toNat + 1) mid0 (by omega) (by omega)
      set m1 := skipUp s high ((high + 1 - mid0).toNat + 1) mid0 with hm1
      by_cases hgt : m1 > high
      · rw [if_pos hgt]
        obtain ⟨hd1, hd2, hd3, hd4⟩ :=
          skipDown_spec s low ((mid0 + 1 - low).toNat + 1) mid0 (by omega) (by omega)
        set m2 := skipDown s low ((mid0 + 1 - low).toNat + 1) mid0 with hm2
        by_cases hlt : m2 < low
        · rw [if_pos hlt]
          simp only
          refine Or.inr (Or.inl ⟨fun p v hp hplt => hL p v hp hplt, ?_⟩)
          intro p v hp hple
          by_cases hph : high < p
          · exact hR p v hp hph
          · exfalso
            have hemp : (slotAt s p).isNone := by
              by_cases hpm : p ≤ mid0
              · exact hd3 p hpm (by omega)
              · exact hu3 p (by omega) (by omega)
            rw [hp] at hemp
            simp at hemp
        · rw [if_neg hlt]
          simp only
          have hocc : (slotAt s m2).isSome := hd4 (by omega)
          obtain ⟨v, hv⟩ := Option.isSome_iff_exists.mp hocc
          rw [hv]
          simp only [Option.getD_some]
          by_cases hv1 : v < t
          · rw [if_pos hv1]
            refine ih (m2 + 1) high (by omega) (by omega) (by omega) h2 ?_ hR
            intro p w hp hplt
            by_cases hpl : p < low
            · exact hL p w hp hpl
            · rcases lt_or_eq_of_le (show p ≤ m2 by omega) with h | h
              · exact lt_trans (sortedStore_lt s hs p m2 w v hp hv h) hv1
              · rw [h, hv] at hp
                rw [← Option.some_inj.mp hp]
                exact hv1
          · rw [if_neg hv1]
            by_cases hv2 : t < v
            · rw [if_pos hv2]
              refine ih low (m2 - 1) (by omega) h0 (by omega) (by omega) hL ?_
              intro p w hp hpgt
              by_cases hph : high < p
              · exact hR p w hp hph
              · have hpm2 : m2 ≤ p := by omega
                rcases lt_or_eq_of_le hpm2 with h | h
                · by_cases hpmid : p ≤ mid0
                  · exfalso
                    have hemp := hd3 p hpmid h
                    rw [hp] at hemp
                    simp at hemp
                  · exfalso
                    have hemp := hu3 p (by omega) (by omega)
                    rw [hp] at hemp
                    simp at hemp
                · rw [← h, hv] at hp
                  rw [← Option.some_inj.mp hp]
                  exact hv2
            · rw [if_neg hv2]
              have : v = t := by omega
              rw [this] at hv
              exact Or.inl hv
      · rw [if_neg hgt]
        simp only
        have hocc : (slotAt s m1).isSome := hu4 (by omega)
        obtain ⟨v, hv⟩ := Option.isSome_iff_exists.mp hocc
        rw [hv]
        simp only [Option.getD_some]
        by_cases hv1 : v < t
        · rw [if_pos hv1]
          refine ih (m1 + 1) high (by omega) (by omega) (by omega) h2 ?_ hR
          intro p w hp hplt
          by_cases hpl : p < low
          · exact hL p w hp hpl
          · rcases lt_or_eq_of_le (show p ≤ m1 by omega) with h | h
            · exact lt_trans (sortedStore_lt s hs p m1 w v hp hv h) hv1
            · rw [h, hv] at hp
              rw [← Option.some_inj.mp hp]
              exact hv1
        · rw [if_neg hv1]
          by_cases hv2 : t < v
          · rw [if_pos hv2]
            refine ih low (m1 - 1) (by omega) h0 (by omega) (by omega) hL ?_
            intro p w hp hpgt
            by_cases hph : high < p
            · exact hR p w hp hph
            · have hpm1 : m1 ≤ p := by omega
              rcases lt_or_eq_of_le hpm1 with h | h
              · exact lt_trans hv2 (sortedStore_lt s hs m1 p v w hv hp h)
              · rw [← h, hv] at hp
                rw [← Option.some_inj.mp hp]
                exact hv2
          · rw [if_neg hv2]
            have : v = t := by omega
            rw [this] at hv
            exact Or.inl hv
    · rw [if_neg hc]
      by_cases he : (low == (s.length : Int)) = true
      · rw [if_pos he]
        have hle : low = (s.length : Int) := by simpa using he
        refine Or.inr (Or.inr ⟨by omega, ?_⟩)
        intro p v hp
        obtain ⟨hp0, hp1⟩ := slotAt_some_bounds s p v hp
        exact hL p v hp (by omega)
      · rw [if_neg he]
        refine Or.inr (Or.inl ⟨fun p v hp hplt => hL p v hp hplt, ?_⟩)
        intro p v hp hple
        exact hR p v hp (by omega)

theorem index_of_post (s : Items) (t : Int) (hs : sortedStore s) (hlen : 0 < s.length) :
    iPost s t (pma.index_of s t) := by
  refine index_of_go_post s t hs hlen (s.length + 2) 0 ((s.length : Int) - 1)
    (by omega) (by omega) (by omega) (by omega) ?_ ?_
  · intro p v hp hplt
    obtain ⟨hp0, _⟩ := slotAt_some_bounds s p v hp
    omega
  · intro p v hp hpgt
    obtain ⟨_, hp1⟩ := slotAt_some_bounds s p v hp
    omega

theorem pma_index_of_bounds (s : Items) (t : Int) (hlen : 0 < s.length) :
    0 ≤ pma.index_of s t ∧ pma.index_of s t < (s.length : Int) :=
  pma_index_of_go_bounds s t hlen (s.length + 2) 0 ((s.length : Int) - 1)
    (by omega) (by omega) (by omega) (by omega)

/-- C5: on a sorted store, if some occupied slot holds an item equivalent to the
probe, index_of returns an in-bounds index whose slot is occupied by exactly
that item. -/
theorem claim5_index_of_finds (s : Items) (t : Int) (hs : sortedStore s)
    (hq : ∃ q : Int, slotAt s q = some t) :
    0 ≤ pma.index_of s t ∧ pma.index_of s t < (s.length : Int) ∧
    slotAt s (pma.index_of s t) = some t := by
  obtain ⟨q, hq⟩ := hq
  have hqb := slotAt_some_bounds s q t hq
  have hlen : 0 < s.length := by omega
  have hb := pma_index_of_bounds s t hlen
  refine ⟨hb.1, hb.2, ?_⟩
  rcases index_of_post s t hs hlen with h | ⟨hL, hR⟩ | ⟨hr, hall⟩
  · exact h
  · exfalso
    rcases lt_or_le q (pma.index_of s t) with hcmp | hcmp
    · exact lt_irrefl t (hL q t hq hcmp)
    · exact lt_irrefl t (hR q t hq hcmp)
  · exact absurd (hall q t hq) (lt_irrefl t)

/-- Witness for C5 at a concrete sorted store. -/
theorem claim5_witness :
    sortedStore [some 2, none, some 7, none] ∧
    (0 ≤ pma.index_of [some 2, none, some 7, none] 7 ∧
      pma.index_of [some 2, none, some 7, none] 7 < 4 ∧
      slotAt [some 2, none, some 7, none] (pma.index_of [some 2, none, some 7, none] 7) =
        some 7) :=
  ⟨by decide, claim5_index_of_finds [some 2, none, some 7, none] 7 (by decide) ⟨2, by decide⟩⟩

theorem succ_from_spec (s : Items) (t : Int) :
    ∀ fuel (i : Int), ((s.length : Int) - i).toNat < fuel → 0 ≤ i →
      i ≤ pma.succ_from s t fuel i ∧
      (∀ k, i ≤ k → k < pma.succ_from s t fuel i →
        (slotAt s k).isNone ∨ (slotAt s k).getD 0 ≤ t) ∧
      (pma.succ_from s t fuel i < (s.length : Int) →
        (slotAt s (pma.succ_from s t fuel i)).isSome ∧
          t < (slotAt s (pma.succ_from s t fuel i)).getD 0) := by
  intro fuel
  induction fuel with
  | zero => intro i hf; omega
  | succ f ih =>
    intro i hf h0
    rw [pma.succ_from]
    by_cases hc : i < (s.length : Int) ∧ ((slotAt s i).isNone ∨ (slotAt s i).getD 0 ≤ t)
    · rw [if_pos hc]
      obtain ⟨h1, h2, h3⟩ := ih (i + 1) (by omega) (by omega)
      refine ⟨by omega, ?_, h3⟩
      intro k hk1 hk2
      rcases eq_or_lt_of_le hk1 with h | h
      · rw [← h]; exact hc.2
      · exact h2 k (by omega) hk2
    · rw [if_neg hc]
      refine ⟨le_refl i, by intro k h1 h2; omega, ?_⟩
      intro hlt
      rcases Decidable.not_and_iff_or_not.mp hc with h | h
      · omega
      · push_neg at h
        rcases h with ⟨hocc, hgt⟩
        constructor
        · simpa [Option.isNone_iff_eq_none, Option.isSome_iff_ne_none] using hocc
        · omega

/-- C4: on a sorted store, successor returns the smallest occupied value
strictly greater than the probe, and returns the probe itself when no occupied
value exceeds it (in particular on the empty store). -/
theorem claim4_successor_correct (s : Items) (t : Int) (hs : sortedStore s)
    (hlen : 0 < s.length) :
    ((∀ j v, slotAt s j = some v → v ≤ t) → pma.successor s t = t) ∧
    (∀ j v, slotAt s j = some v → t < v →
      (∃ q : Int, slotAt s q = some (pma.successor s t)) ∧
      t < pma.successor s t ∧ pma.successor s t ≤ v) := by
  have hib := pma_index_of_bounds s t hlen
  have hpost := index_of_post s t hs hlen
  have hbelow : ∀ p v, slotAt s p = some v → p < pma.index_of s t → v ≤ t := by
    intro p v hp hlt
    rcases hpost with h | ⟨hL, hR⟩ | ⟨hr, hall⟩
    · exact le_of_lt (sortedStore_lt s hs p (pma.index_of s t) v t hp h hlt)
    · exact le_of_lt (hL p v hp hlt)
    · exact le_of_lt (hall p v hp)
  obtain ⟨hu1, hu2, hu3⟩ :=
    succ_from_spec s t (s.length + 1) (pma.index_of s t) (by omega) hib.1
  set u := pma.succ_from s t (s.length + 1) (pma.index_of s t) with hu
  have hskip : ∀ p v, slotAt s p = some v → p < u → v ≤ t := by
    intro p v hp hlt
    by_cases hpi : p < pma.index_of s t
    · exact hbelow p v hp hpi
    · have := hu2 p (by omega) hlt
      rw [hp] at this
      rcases this with h | h
      · exact absurd h (by simp)
      · simpa using h
  have hsucc : pma.successor s t = if u ≥ (s.length : Int) then t else (slotAt s u).getD 0 := by
    rw [pma.successor]
  by_cases hue : u ≥ (s.length : Int)
  · rw [hsucc, if_pos hue]
    refine ⟨fun _ => rfl, ?_⟩
    intro j v hj hv
    exfalso
    have hjb := slotAt_some_bounds s j v hj
    exact absurd (hskip j v hj (by omega)) (by omega)
  · rw [hsucc, if_neg hue]
    obtain ⟨hocc, hgt⟩ := hu3 (by omega)
    obtain ⟨w, hw⟩ := Option.isSome_iff_exists.mp hocc
    rw [hw]
    rw [hw] at hgt
    simp only [Option.getD_some] at hgt ⊢
    constructor
    · intro hall
      exact absurd (hall u w hw) (by omega)
    · intro j v hj hv
      refine ⟨⟨u, hw⟩, hgt, ?_⟩
      rcases lt_trichotomy j u with h | h | h
      · exact absurd (hskip j v hj h) (by omega)
      · rw [h, hw] at hj
        exact le_of_eq (Option.some_inj.mp hj)
      · exact le_of_lt (sortedStore_lt s hs u j w v hw hj h)

/-- Witness for C4 at a concrete sorted store with probe 3 and occupant 7. -/
theorem claim4_witness :
    (∃ q : Int,
        slotAt [some 2, none, some 7, none] q =
          some (pma.successor [some 2, none, some 7, none] 3)) ∧
    3 < pma.successor [some 2, none, some 7, none] 3 ∧
    pma.successor [some 2, none, some 7, none] 3 ≤ 7 :=
  (claim4_successor_correct [some 2, none, some 7, none] 3 (by decide) (by decide)).2
    2 7 (by decide) (by decide)

/-! ### Placement arithmetic of rearrange_items -/

theorem roundQ_nonneg (x : ℚ) (h : 0 ≤ x) : 0 ≤ roundQ x := by
  unfold roundQ
  have : (0 : Int) ≤ Int.floor (0 + (1:ℚ)/2) := by norm_num
  calc (0 : Int) ≤ Int.floor ((0:ℚ) + 1/2) := this
    _ ≤ Int.floor (x + 1/2) := Int.floor_mono (by linarith)

theorem roundQ_mono (x y : ℚ) (h : x ≤ y) : roundQ x ≤ roundQ y :=
  Int.floor_mono (by linarith)

theorem roundQ_floor_gap (x y : ℚ) : roundQ x + Int.floor y ≤ roundQ (x + y) := by
  unfold roundQ
  refine Int.le_floor.mpr ?_
  push_cast
  have h1 := Int.floor_le (x + 1/2)
  have h2 := Int.floor_le y
  linarith

theorem roundQ_add_one_le (x y : ℚ) (h : 1 ≤ y) : roundQ x + 1 ≤ roundQ (x + y) := by
  have := roundQ_floor_gap x y
  have h1 : (1 : Int) ≤ Int.floor y := by
    rw [Int.le_floor]
    exact_mod_cast h
  omega

theorem roundQ_le (x : ℚ) (m : Int) (h : x < (m : ℚ) + 1/2) : roundQ x ≤ m := by
  unfold roundQ
  rw [Int.floor_le_iff]
  push_cast
  linarith

/-- Positions later in the loop never touch slots left of the next write. -/
theorem placeLoop_lower (b : Int) (step : ℚ) (hstep : 0 ≤ step) :
    ∀ (buf : List Int) (s : Items) (pos : ℚ) (q : Int), q < b + roundQ pos →
      slotAt (pma.placeLoop s b step pos buf) q = slotAt s q := by
  intro buf
  induction buf with
  | nil => intro s pos q hq; rfl
  | cons x xs ih =>
    intro s pos q hq
    rw [pma.placeLoop]
    rw [ih _ (pos + step) q (by
      have := roundQ_mono pos (pos + step) (by linarith)
      omega)]
    exact slotAt_setSlot_ne s (b + roundQ pos) q (some x) (by omega)

/-- Each buffered item lands at b + round(pos + j * step) and stays there. -/
theorem placeLoop_slot (b : Int) (step : ℚ) (hstep : 1 ≤ step) (hb : 0 ≤ b) :
    ∀ (buf : List Int) (s : Items) (pos : ℚ), 0 ≤ pos →
      (∀ j : Nat, j < buf.length → b + roundQ (pos + j * step) < (s.length : Int)) →
      ∀ j : Nat, (hj : j < buf.length) →
        slotAt (pma.placeLoop s b step pos buf) (b + roundQ (pos + j * step)) =
          some (buf.get ⟨j, hj⟩) := by
  intro buf
  induction buf with
  | nil => intro s pos hpos hin j hj; exact absurd hj (Nat.not_lt_zero j)
  | cons x xs ih =>
    intro s pos hpos hin j hj
    rw [pma.placeLoop]
    match j with
    | 0 =>
      have hz : pos + (0 : Nat) * step = pos := by push_cast; ring
      rw [hz]
      rw [placeLoop_lower b step (by linarith) xs _ (pos + step) (b + roundQ pos)
        (by have := roundQ_add_one_le pos step hstep; omega)]
      have hlen : (pma.placeLoop s b step pos [] ).length = s.length := rfl
      refine slotAt_setSlot_self s (b + roundQ pos) (some x) ?_ ?_
      · have := roundQ_nonneg pos hpos
        omega
      · have := hin 0 (Nat.succ_pos xs.length)
        rw [hz] at this
        exact this
    | Nat.succ j' =>
      have hlc : (x :: xs).length = xs.length + 1 := rfl
      have hsh : pos + (Nat.succ j' : Nat) * step = (pos + step) + j' * step := by
        push_cast; ring
      rw [hsh]
      have hlen1 : (setSlot s (b + roundQ pos) (some x)).length = s.length :=
        length_setSlot s (b + roundQ pos) (some x)
      have ih2 := ih (setSlot s (b + roundQ pos) (some x)) (pos + step)
        (by linarith)
        (by
          intro m hm
          rw [hlen1]
          have := hin (m + 1) (by omega)
          have he : pos + ((m : Nat) + 1 : Nat) * step = (pos + step) + m * step := by
            push_cast; ring
          rw [he] at this
          exact this)
        j' (by omega)
      rw [ih2]
      rfl

/-- C7 (amended to packed_memory_array::rearrange_items, whose round-formula
placement part_001 shares; OrderedVector::rearrange_items uses an integer
stride with adjacent pairing and violates both the placement and the gap
bound, as the counterexample shows): rearranging an ordered buffer of n items
over a window of width k with 1 <= n <= k writes item j at index
begin + round(j * (k/n)); all written indices lie inside the window,
successive indices grow by at least floor(k/n) (hence at least floor(k/n) - 1
empty slots separate successive items and the order is preserved with no item
lost), and the rearranged store holds item j at its index. -/
theorem claim7_rearrange_spacing (s : Items) (b e : Int) (k : Nat) (buf : List Int)
    (hb : 0 ≤ b) (hek : e - b = (k : Int)) (he : e ≤ (s.length : Int))
    (hn1 : 1 ≤ buf.length) (hnk : buf.length ≤ k) :
    (∀ j : Nat, j < buf.length →
      0 ≤ roundQ ((j : ℚ) * ((k : ℚ) / (buf.length : ℚ))) ∧
      b + roundQ ((j : ℚ) * ((k : ℚ) / (buf.length : ℚ))) < e) ∧
    (∀ j : Nat, j + 1 < buf.length →
      roundQ ((j : ℚ) * ((k : ℚ) / (buf.length : ℚ))) + ((k / buf.length : Nat) : Int) ≤
        roundQ (((j + 1 : Nat) : ℚ) * ((k : ℚ) / (buf.length : ℚ))) ∧
      roundQ ((j : ℚ) * ((k : ℚ) / (buf.length : ℚ))) <
        roundQ (((j + 1 : Nat) : ℚ) * ((k : ℚ) / (buf.length : ℚ)))) ∧
    (∀ j : Nat, (hj : j < buf.length) →
      slotAt (pma.rearrange_items s b e buf)
        (b + roundQ ((j : ℚ) * ((k : ℚ) / (buf.length : ℚ)))) = some (buf.get ⟨j, hj⟩)) := by
  have hn0 : (0 : ℚ) < (buf.length : ℚ) := by exact_mod_cast hn1
  set n := buf.length with hn
  set step : ℚ := (k : ℚ) / (n : ℚ) with hstepdef
  have hstep1 : 1 ≤ step := by
    rw [hstepdef, le_div_iff hn0]
    simpa using (by exact_mod_cast hnk : (n : ℚ) ≤ (k : ℚ))
  have hstep0 : 0 ≤ step := le_trans zero_le_one hstep1
  have hup : ∀ j : Nat, j < n → (j : ℚ) * step ≤ (k : ℚ) - 1 := by
    intro j hj
    have h1 : (j : ℚ) * step ≤ ((n : ℚ) - 1) * step := by
      have : (j : ℚ) ≤ (n : ℚ) - 1 := by
        have : (j : ℚ) + 1 ≤ (n : ℚ) := by exact_mod_cast hj
        linarith
      exact mul_le_mul_of_nonneg_right this hstep0
    have h2 : ((n : ℚ) - 1) * step = (k : ℚ) - step := by
      rw [hstepdef]
      field_simp
      ring
    have h3 : (k : ℚ) - step ≤ (k : ℚ) - 1 := by linarith
    linarith
  have hbound : ∀ j : Nat, j < n → 0 ≤ roundQ ((j : ℚ) * step) ∧
      roundQ ((j : ℚ) * step) ≤ (k : Int) - 1 := by
    intro j hj
    constructor
    · exact roundQ_nonneg _ (by positivity)
    · refine roundQ_le _ _ ?_
      have := hup j hj
      push_cast
      linarith
  have hfloorstep : Int.floor step = ((k / n : Nat) : Int) := by
    rw [hstepdef]
    have : ((k : ℚ) / (n : ℚ)) = (((k : Int) : ℚ) / ((n : Nat) : ℚ)) := by push_cast; ring
    rw [this, Rat.floor_intCast_div_natCast]
    exact (Int.natCast_div k n).symm
  have hgap : ∀ j : Nat, j + 1 < n →
      roundQ ((j : ℚ) * step) + ((k / n : Nat) : Int) ≤ roundQ (((j + 1 : Nat) : ℚ) * step) := by
    intro j hj
    have he : ((j + 1 : Nat) : ℚ) * step = (j : ℚ) * step + step := by push_cast; ring
    rw [he, ← hfloorstep]
    exact roundQ_floor_gap _ _
  have hone : 1 ≤ ((k / n : Nat) : Int) := by
    have : 1 ≤ k / n := (Nat.one_le_div_iff (by omega)).mpr hnk
    exact_mod_cast this
  refine ⟨fun j hj => ⟨(hbound j hj).1, by have := (hbound j hj).2; omega⟩, ?_, ?_⟩
  · intro j hj
    refine ⟨hgap j hj, ?_⟩
    have := hgap j hj
    omega
  · intro j hj
    have hre : pma.rearrange_items s b e buf = pma.placeLoop s b step 0 buf := by
      rw [pma.rearrange_items, hek]
      rw [hstepdef]
      norm_num
    rw [hre]
    have hp := placeLoop_slot b step hstep1 hb buf s 0 (le_refl 0)
      (by
        intro m hm
        rw [zero_add]
        have := (hbound m hm).2
        omega)
      j hj
    rw [zero_add] at hp
    exact hp

/-- Witness for C7: three items spread over a window of width eight. -/
theorem claim7_witness :
    (0 ≤ roundQ ((1 : ℚ) * ((8 : ℚ) / (3 : ℚ))) ∧
      0 + roundQ ((1 : ℚ) * ((8 : ℚ) / (3 : ℚ))) < 8) ∧
    (roundQ ((1 : ℚ) * ((8 : ℚ) / (3 : ℚ))) + ((8 / 3 : Nat) : Int) ≤
        roundQ (((2 : Nat) : ℚ) * ((8 : ℚ) / (3 : ℚ))) ∧
      roundQ ((1 : ℚ) * ((8 : ℚ) / (3 : ℚ))) <
        roundQ (((2 : Nat) : ℚ) * ((8 : ℚ) / (3 : ℚ)))) ∧
    slotAt (pma.rearrange_items (List.replicate 8 none) 0 8 [10, 20, 30])
      (0 + roundQ ((1 : ℚ) * ((8 : ℚ) / (3 : ℚ)))) = some 20 := by
  have h := claim7_rearrange_spacing (List.replicate 8 none) 0 8 8 [10, 20, 30]
    (by decide) (by decide) (by decide) (by decide) (by decide)
  have h3 : (1 : Nat) + 1 < ([10, 20, 30] : List Int).length := by decide
  have h1 : (1 : Nat) < ([10, 20, 30] : List Int).length := by decide
  refine ⟨?_, ?_, ?_⟩
  · have := h.1 1 h1
    simpa using this
  · have := h.2.1 1 h3
    simpa using this
  · have := h.2.2 1 h1
    simpa using this

/-! ### The occupied-value sequence -/

theorem vals_append (a b : Items) : vals (a ++ b) = vals a ++ vals b :=
  List.filterMap_append a b id

theorem vals_replicate (m : Nat) : vals (List.replicate m none) = [] := by
  induction m with
  | zero => rfl
  | succ k ih => simpa [vals, List.replicate_succ, List.filterMap_cons] using ih

theorem vals_cons_none (rest : Items) : vals (none :: rest) = vals rest := by
  simp [vals, List.filterMap_cons]

theorem vals_cons_some (x : Int) (rest : Items) : vals (some x :: rest) = x :: vals rest := by
  simp [vals, List.filterMap_cons]

theorem vals_length (s : Items) : (vals s).length = s.countP (fun o => o.isSome) := by
  induction s with
  | nil => rfl
  | cons o rest ih => cases o <;> simp [vals, List.filterMap_cons, List.countP_cons, ih] <;>
      simpa [vals] using ih

theorem mem_vals (s : Items) (x : Int) : x ∈ vals s ↔ ∃ p : Int, slotAt s p = some x := by
  constructor
  · intro hx
    obtain ⟨o, ho, he⟩ := List.mem_filterMap.mp hx
    rw [id] at he
    rw [he] at ho
    obtain ⟨n, hn, hg⟩ := List.mem_iff_getElem.mp ho
    refine ⟨(n : Int), ?_⟩
    rw [slotAt_ofNat, List.getD_eq_getElem?_getD, List.getElem?_eq_getElem hn, Option.getD_some, hg]
  · rintro ⟨p, hp⟩
    obtain ⟨hp0, hp1⟩ := slotAt_some_bounds s p x hp
    rw [← slotAt_toNat s p hp0, List.getD_eq_getElem?_getD] at hp
    have hlt : p.toNat < s.length := by omega
    rw [List.getElem?_eq_getElem hlt, Option.getD_some] at hp
    refine List.mem_filterMap.mpr ⟨some x, ?_, rfl⟩
    rw [← hp]
    exact List.getElem_mem hlt

theorem sortedStore_cons (o : Option Int) (rest : Items) :
    sortedStore (o :: rest) ↔
      (∀ j : Nat, j < rest.length → slotLt o (rest.getD j none) = true) ∧ sortedStore rest := by
  constructor
  · intro h
    constructor
    · intro j hj
      have := h 0 (by simp) (j + 1) (by simp; omega) (by omega)
      simpa using this
    · intro i hi j hj hij
      have := h (i + 1) (by simp; omega) (j + 1) (by simp; omega) (by omega)
      simpa using this
  · rintro ⟨h1, h2⟩ i hi j hj hij
    match i, j with
    | 0, 0 => omega
    | 0, j'+1 =>
      rw [List.getD_cons_zero, List.getD_cons_succ]
      exact h1 j' (by simpa using hj)
    | i'+1, 0 => omega
    | i'+1, j'+1 =>
      rw [List.getD_cons_succ, List.getD_cons_succ]
      exact h2 i' (by simpa using hi) j' (by simpa using hj) (by omega)

theorem sorted_iff_pairwise (s : Items) :
    sortedStore s ↔ (vals s).Pairwise (· < ·) := by
  induction s with
  | nil =>
    constructor
    · intro _; exact List.Pairwise.nil
    · intro _ i hi; simp at hi
  | cons o rest ih =>
    rw [sortedStore_cons]
    cases o with
    | none =>
      rw [vals_cons_none]
      rw [← ih]
      constructor
      · rintro ⟨_, h⟩; exact h
      · intro h
        exact ⟨fun j hj => by simp [slotLt], h⟩
    | some x =>
      rw [vals_cons_some, List.pairwise_cons, ← ih]
      constructor
      · rintro ⟨h1, h2⟩
        refine ⟨?_, h2⟩
        intro y hy
        obtain ⟨p, hp⟩ := (mem_vals rest y).mp hy
        obtain ⟨hp0, hp1⟩ := slotAt_some_bounds rest p y hp
        have := h1 p.toNat (by omega)
        rw [slotAt_toNat rest p hp0, hp] at this
        simpa [slotLt] using this
      · rintro ⟨h1, h2⟩
        refine ⟨?_, h2⟩
        intro j hj
        rcases hv : rest.getD j none with _ | y
        · simp [slotLt]
        · have hy : y ∈ vals rest := by
            refine (mem_vals rest y).mpr ⟨(j : Int), ?_⟩
            rw [slotAt_ofNat, hv]
          simpa [slotLt] using h1 y hy

/-! ### Specification of get_items -/

theorem get_items_go_spec :
    ∀ (fuel : Nat) (s : Items) (acc : List Int) (i : Int), 0 ≤ i →
      i + fuel ≤ (s.length : Int) →
      (pma.get_items_go s acc fuel i).1 =
        acc.reverse ++ vals ((s.drop i.toNat).take fuel) ∧
      (pma.get_items_go s acc fuel i).2 =
        s.take i.toNat ++ List.replicate fuel none ++ s.drop (i.toNat + fuel) := by
  intro fuel
  induction fuel with
  | zero =>
    intro s acc i h0 h1
    constructor
    · simp [pma.get_items_go, vals]
    · simp [pma.get_items_go, List.take_append_drop]
  | succ f ih =>
    intro s acc i h0 h1
    have hn : i.toNat < s.length := by omega
    have hdrop : s.drop i.toNat = s[i.toNat] :: s.drop (i.toNat + 1) :=
      List.drop_eq_getElem_cons hn
    have hget : slotAt s i = s[i.toNat] := by
      rw [← slotAt_toNat s i h0, List.getD_eq_getElem?_getD, List.getElem?_eq_getElem hn,
        Option.getD_some]
    rw [pma.get_items_go]
    rcases hv : slotAt s i with _ | v
    · have hsl : s[i.toNat] = none := by rw [← hget, hv]
      obtain ⟨ih1, ih2⟩ := ih s acc (i + 1) (by omega) (by omega)
      have htn : (i + 1).toNat = i.toNat + 1 := by omega
      rw [htn] at ih1 ih2
      constructor
      · rw [ih1, hdrop, hsl, List.take_succ_cons, vals_cons_none]
      · rw [ih2]
        have htake : s.take (i.toNat + 1) = s.take i.toNat ++ [none] := by
          rw [List.take_succ, List.getElem?_eq_getElem hn, hsl]
          rfl
        have hidx : i.toNat + 1 + f = i.toNat + (f + 1) := by omega
        rw [hidx, htake, List.replicate_succ]
        simp [List.append_assoc]
    · have hsl : s[i.toNat] = some v := by rw [← hget, hv]
      have hset : setSlot s i none = s.take i.toNat ++ none :: s.drop (i.toNat + 1) := by
        unfold setSlot
        rw [if_pos h0]
        exact List.set_eq_take_cons_drop none hn
      obtain ⟨ih1, ih2⟩ := ih (setSlot s i none) (v :: acc) (i + 1) (by omega)
        (by rw [length_setSlot]; omega)
      have htn : (i + 1).toNat = i.toNat + 1 := by omega
      rw [htn] at ih1 ih2
      constructor
      · rw [ih1]
        have hd1 : (setSlot s i none).drop (i.toNat + 1) = s.drop (i.toNat + 1) := by
          unfold setSlot
          rw [if_pos h0]
          exact List.drop_set_of_lt none s (by omega)
        rw [hd1, hdrop, hsl, List.take_succ_cons, vals_cons_some]
        simp
      · rw [ih2]
        have hd2 : (setSlot s i none).drop (i.toNat + 1 + f) = s.drop (i.toNat + 1 + f) := by
          unfold setSlot
          rw [if_pos h0]
          exact List.drop_set_of_lt none s (by omega)
        have ht2 : (setSlot s i none).take (i.toNat + 1) = s.take i.toNat ++ [none] := by
          rw [hset, List.take_append_eq_append_take, List.take_take]
          have hlen : (s.take i.toNat).length = i.toNat := by
            rw [List.length_take]
            omega
          rw [hlen]
          have hmin : min (i.toNat + 1) i.toNat = i.toNat := by omega
          have hsub : i.toNat + 1 - i.toNat = 1 := by omega
          rw [hmin, hsub, List.take_succ_cons, List.take_zero]
        have hidx : i.toNat + 1 + f = i.toNat + (f + 1) := by omega
        rw [hd2, ht2, List.replicate_succ, hidx]
        simp [List.append_assoc]

theorem get_items_spec (s : Items) (b e : Int) (hb : 0 ≤ b) (hbe : b ≤ e)
    (he : e ≤ (s.length : Int)) :
    (pma.get_items s b e).1 = vals ((s.drop b.toNat).take (e - b).toNat) ∧
    (pma.get_items s b e).2 =
      s.take b.toNat ++ List.replicate (e - b).toNat none ++ s.drop e.toNat := by
  obtain ⟨h1, h2⟩ := get_items_go_spec (e - b).toNat s [] b hb (by omega)
  constructor
  · simpa using h1
  · show (pma.get_items_go s [] (e - b).toNat b).2 = _
    rw [h2]
    have : b.toNat + (e - b).toNat = e.toNat := by omega
    rw [this]

/-! ### Value sequence of the placement loop -/

theorem take_set_succ (l : Items) (n : Nat) (x : Option Int) (h : n < l.length) :
    (l.set n x).take (n + 1) = l.take n ++ [x] := by
  rw [List.set_eq_take_cons_drop x h, List.take_append_eq_append_take, List.take_take]
  have hlen : (l.take n).length = n := by
    rw [List.length_take]
    omega
  rw [hlen]
  have hmin : min (n + 1) n = n := by omega
  have hsub : n + 1 - n = 1 := by omega
  rw [hmin, hsub, List.take_succ_cons, List.take_zero]

theorem placeLoop_vals (b : Int) (step : ℚ) (hstep : 1 ≤ step) :
    ∀ (buf : List Int) (r : Items) (pos : ℚ) (p m : Nat) (tail0 : Items),
      0 ≤ pos →
      (p : Int) + m ≤ (r.length : Int) →
      r.drop p = List.replicate m none ++ tail0 →
      (p : Int) ≤ b + roundQ pos →
      (buf ≠ [] → b + roundQ (pos + ((buf.length - 1 : Nat) : ℚ) * step) < (p : Int) + m) →
      vals (pma.placeLoop r b step pos buf) = vals (r.take p) ++ buf ++ vals tail0 := by
  intro buf
  induction buf with
  | nil =>
    intro r pos p m tail0 hpos hpm hdrop hple hlast
    show vals r = _
    conv_lhs => rw [← List.take_append_drop p r]
    rw [vals_append, hdrop, vals_append, vals_replicate]
    simp
  | cons x xs ih =>
    intro r pos p m tail0 hpos hpm hdrop hple hlast
    have hlast1 := hlast (by simp)
    have hxlen : ((x :: xs).length - 1 : Nat) = xs.length := by simp
    rw [hxlen] at hlast1
    have hq2 : b + roundQ pos < (p : Int) + m := by
      have h1 : roundQ pos ≤ roundQ (pos + (xs.length : ℚ) * step) := by
        refine roundQ_mono _ _ ?_
        have : (0 : ℚ) ≤ (xs.length : ℚ) * step := by positivity
        linarith
      omega
    have hq0 : 0 ≤ b + roundQ pos := by omega
    set q := b + roundQ pos with hqdef
    have hqn : ((q.toNat : Int)) = q := Int.toNat_of_nonneg hq0
    have hqlen : q.toNat < r.length := by omega
    have hr1len : (setSlot r q (some x)).length = r.length := length_setSlot r q (some x)
    have hset : setSlot r q (some x) = r.set q.toNat (some x) := by
      unfold setSlot
      rw [if_pos hq0]
    have hmsub : q.toNat - p ≤ m := by omega
    have hdropq : r.drop (q.toNat + 1) =
        List.replicate (m - (q.toNat + 1 - p)) none ++ tail0 := by
      have hpq : p + (q.toNat + 1 - p) = q.toNat + 1 := by omega
      rw [← hpq, ← List.drop_drop, hdrop, List.drop_append_eq_append_drop]
      rw [List.drop_replicate, List.length_replicate]
      have h0 : q.toNat + 1 - p - m = 0 := by omega
      rw [h0, List.drop_zero]
      have heq : p + (q.toNat + 1 - p) - p = q.toNat + 1 - p := by omega
      rw [heq]
    have hr1drop : (setSlot r q (some x)).drop (q.toNat + 1) =
        List.replicate (m - (q.toNat + 1 - p)) none ++ tail0 := by
      rw [hset, List.drop_set_of_lt _ _ (by omega)]
      exact hdropq
    have htakeq : vals ((setSlot r q (some x)).take (q.toNat + 1)) =
        vals (r.take p) ++ [x] := by
      rw [hset, take_set_succ r q.toNat (some x) hqlen]
      rw [vals_append]
      have hsplit : r.take q.toNat = r.take p ++ (r.drop p).take (q.toNat - p) := by
        have h1 : q.toNat = p + (q.toNat - p) := by omega
        rw [h1, List.take_add]
        have h2 : p + (q.toNat - p) - p = q.toNat - p := by omega
        rw [h2]
      rw [hsplit, hdrop, List.take_append_eq_append_take, List.take_replicate,
        List.length_replicate]
      have h0 : q.toNat - p - m = 0 := by omega
      have hm : min (q.toNat - p) m = q.toNat - p := by omega
      rw [h0, hm, List.take_zero, vals_append, vals_append, vals_replicate]
      simp [vals]
    have ihx := ih (setSlot r q (some x)) (pos + step) (q.toNat + 1)
      (m - (q.toNat + 1 - p)) tail0
      (by linarith)
      (by rw [hr1len]; push_cast; omega)
      hr1drop
      (by
        have := roundQ_add_one_le pos step hstep
        push_cast
        omega)
      (by
        intro hne
        have hlen1 : 1 ≤ xs.length := List.length_pos.mpr hne
        have hcast : ((xs.length - 1 : Nat) : ℚ) = (xs.length : ℚ) - 1 := by
          push_cast [hlen1]
          ring
        rw [hcast]
        have harg : pos + step + ((xs.length : ℚ) - 1) * step =
            pos + (xs.length : ℚ) * step := by ring
        rw [harg]
        push_cast
        omega)
    show vals (pma.placeLoop (setSlot r q (some x)) b step (pos + step) xs) = _
    rw [ihx, htakeq]
    simp

/-! ### Helpers for the rebalancing proofs -/

theorem roundQ_zero : roundQ 0 = 0 := by
  unfold roundQ
  norm_num

theorem placeLoop_length (b : Int) (step : ℚ) :
    ∀ (buf : List Int) (s : Items) (pos : ℚ),
      (pma.placeLoop s b step pos buf).length = s.length := by
  intro buf
  induction buf with
  | nil => intro s pos; rfl
  | cons x xs ih =>
    intro s pos
    show (pma.placeLoop (setSlot s (b + roundQ pos) (some x)) b step (pos + step) xs).length = _
    rw [ih, length_setSlot]

theorem slotAt_cons_succ (o : Option Int) (rest : Items) (p : Int) (hp : 0 ≤ p) :
    slotAt (o :: rest) (p + 1) = slotAt rest p := by
  unfold slotAt
  rw [if_pos (by omega : (0:Int) ≤ p + 1), if_pos hp]
  have : (p + 1).toNat = p.toNat + 1 := by omega
  rw [this, List.getD_cons_succ]

theorem exists_empty_slot (s : Items) (h : (vals s).length < s.length) :
    ∃ p : Int, 0 ≤ p ∧ p < (s.length : Int) ∧ slotAt s p = none := by
  induction s with
  | nil => simp at h
  | cons o rest ih =>
    cases o with
    | none =>
      refine ⟨0, by omega, by exact_mod_cast Nat.succ_pos rest.length, ?_⟩
      simp [slotAt]
    | some x =>
      rw [vals_cons_some] at h
      simp only [List.length_cons] at h
      obtain ⟨p, hp0, hp1, hp⟩ := ih (by simpa using h)
      refine ⟨p + 1, by omega, ?_, ?_⟩
      · have : ((some x :: rest).length : Int) = (rest.length : Int) + 1 := by
          simp
        omega
      · rw [slotAt_cons_succ _ _ p hp0]
        exact hp

theorem vals_length_le (s : Items) : (vals s).length ≤ s.length :=
  List.length_filterMap_le id s

theorem step_ge_one (k n : Nat) (h1 : 1 ≤ n) (h2 : n ≤ k) :
    1 ≤ (k : ℚ) / (n : ℚ) := by
  have hn0 : (0 : ℚ) < (n : ℚ) := by exact_mod_cast h1
  rw [le_div_iff hn0]
  simpa using (by exact_mod_cast h2 : (n : ℚ) ≤ (k : ℚ))

theorem roundQ_last_bound (k n j : Nat) (h1 : 1 ≤ n) (h2 : n ≤ k) (hj : j < n) :
    roundQ ((j : ℚ) * ((k : ℚ) / (n : ℚ))) ≤ (k : Int) - 1 := by
  have hn0 : (0 : ℚ) < (n : ℚ) := by exact_mod_cast h1
  have hstep0 : 0 ≤ (k : ℚ) / (n : ℚ) := le_trans zero_le_one (step_ge_one k n h1 h2)
  refine roundQ_le _ _ ?_
  have hjn : (j : ℚ) ≤ (n : ℚ) - 1 := by
    have : (j : ℚ) + 1 ≤ (n : ℚ) := by exact_mod_cast hj
    linarith
  have hle : (j : ℚ) * ((k : ℚ) / (n : ℚ)) ≤ ((n : ℚ) - 1) * ((k : ℚ) / (n : ℚ)) :=
    mul_le_mul_of_nonneg_right hjn hstep0
  have heq : ((n : ℚ) - 1) * ((k : ℚ) / (n : ℚ)) = (k : ℚ) - (k : ℚ) / (n : ℚ) := by
    field_simp
    ring
  have hk1 : (k : ℚ) - (k : ℚ) / (n : ℚ) ≤ (k : ℚ) - 1 := by
    have := step_ge_one k n h1 h2
    linarith
  push_cast
  linarith

/-- Rearranging a buffer of at most k items over a cleared window of width k
keeps the surrounding segments and reinstates exactly the buffer, in order. -/
theorem rearrange_cleared_vals (pre suf : Items) (k : Nat) (b e : Int) (buf : List Int)
    (hb : b = (pre.length : Int)) (he : e - b = (k : Int)) (hnk : buf.length ≤ k) :
    vals (pma.rearrange_items (pre ++ (List.replicate k none ++ suf)) b e buf) =
      vals pre ++ buf ++ vals suf ∧
    (pma.rearrange_items (pre ++ (List.replicate k none ++ suf)) b e buf).length =
      pre.length + (k + suf.length) := by
  have hstepc : (((e - b : Int)) : ℚ) = (k : ℚ) := by
    rw [he]
    push_cast
    ring
  have hunf : pma.rearrange_items (pre ++ (List.replicate k none ++ suf)) b e buf =
      pma.placeLoop (pre ++ (List.replicate k none ++ suf)) b
        ((k : ℚ) / (buf.length : ℚ)) 0 buf := by
    rw [pma.rearrange_items, hstepc]
  have hlen : (pma.placeLoop (pre ++ (List.replicate k none ++ suf)) b
      ((k : ℚ) / (buf.length : ℚ)) 0 buf).length = pre.length + (k + suf.length) := by
    rw [placeLoop_length]
    simp
  refine ⟨?_, by rw [hunf]; exact hlen⟩
  rw [hunf]
  rcases Nat.eq_zero_or_pos buf.length with hn0 | hn1
  · have hbe : buf = [] := List.length_eq_zero.mp hn0
    rw [hbe]
    show vals (pre ++ (List.replicate k none ++ suf)) = _
    rw [vals_append, vals_append, vals_replicate]
    simp
  · have hstep : 1 ≤ (k : ℚ) / (buf.length : ℚ) := step_ge_one k buf.length hn1 hnk
    have hv := placeLoop_vals b ((k : ℚ) / (buf.length : ℚ)) hstep buf
      (pre ++ (List.replicate k none ++ suf)) 0 pre.length k suf
      (le_refl 0)
      (by
        simp only [List.length_append, List.length_replicate]
        push_cast
        omega)
      (List.drop_left pre (List.replicate k none ++ suf))
      (by rw [hb, roundQ_zero]; omega)
      (by
        intro hne
        rw [zero_add, hb]
        have hbd := roundQ_last_bound k buf.length (buf.length - 1) hn1 hnk (by omega)
        omega)
    rw [hb] at hv ⊢
    rw [hv]
    have htk : (pre ++ (List.replicate k none ++ suf)).take pre.length = pre :=
      List.take_left pre (List.replicate k none ++ suf)
    rw [htk]

theorem count_items_eq_vals_length (s : Items) (b e : Int) :
    count_items s b e = (vals ((s.drop b.toNat).take (e - b).toNat)).length := by
  rw [vals_length]
  rfl

theorem vals_window_split (s : Items) (b e : Int) (hb : 0 ≤ b) (hbe : b ≤ e)
    (he : e ≤ (s.length : Int)) :
    vals s = vals (s.take b.toNat) ++ vals ((s.drop b.toNat).take (e - b).toNat) ++
      vals (s.drop e.toNat) := by
  conv_lhs => rw [← List.take_append_drop b.toNat s]
  rw [vals_append]
  have hd : s.drop b.toNat =
      (s.drop b.toNat).take (e - b).toNat ++ s.drop e.toNat := by
    have h1 : s.drop e.toNat = (s.drop b.toNat).drop (e - b).toNat := by
      rw [List.drop_drop]
      rw [show b.toNat + (e - b).toNat = e.toNat by omega]
    rw [h1, List.take_append_drop]
  conv_lhs => rw [hd]
  rw [vals_append, List.append_assoc]

/-- Rebalancing the parent window preserves the occupied-value sequence and the
capacity. -/
theorem rebalance_parent_spec (s : Items) (b e : Int)
    (h0 : 0 ≤ pma.par_begin b e) (h1 : pma.par_begin b e ≤ pma.par_end b e)
    (h2 : pma.par_end b e ≤ (s.length : Int)) :
    vals (pma.rebalance_parent s b e) = vals s ∧
    (pma.rebalance_parent s b e).length = s.length := by
  set pb := pma.par_begin b e with hpb
  set pe := pma.par_end b e with hpe
  set k := (pe - pb).toNat with hk
  obtain ⟨hg1, hg2⟩ := get_items_spec s pb pe h0 h1 h2
  have hprelen : (s.take pb.toNat).length = pb.toNat := by
    rw [List.length_take]
    omega
  have hr2 : (pma.get_items s pb pe).2 =
      s.take pb.toNat ++ (List.replicate k none ++ s.drop pe.toNat) := by
    rw [hg2, List.append_assoc]
  have hnk : (pma.get_items s pb pe).1.length ≤ k := by
    rw [hg1]
    calc (vals ((s.drop pb.toNat).take k)).length
        ≤ ((s.drop pb.toNat).take k).length := vals_length_le _
      _ ≤ k := by rw [List.length_take]; omega
  have hre := rearrange_cleared_vals (s.take pb.toNat) (s.drop pe.toNat) k pb pe
    (pma.get_items s pb pe).1
    (by rw [hprelen]; omega) (by omega) hnk
  rw [← hr2] at hre
  have hmain : pma.rebalance_parent s b e =
      pma.rearrange_items (pma.get_items s pb pe).2 pb pe (pma.get_items s pb pe).1 := rfl
  rw [hmain]
  constructor
  · rw [hre.1, hg1]
    rw [vals_window_split s pb pe h0 h1 h2]
  · rw [hre.2, hprelen, List.length_drop]
    omega

/-! ### Window legality for scan -/

/-- Capacity shape invariant: a power-of-two multiple of the leaf size with at
least two leaves. -/
def capShape (chunk : Nat) (s : Items) : Prop :=
  ∃ hh : Nat, 1 ≤ hh ∧ s.length = chunk * 2 ^ hh

/-- Legality of a window passed to scan at depth d: aligned, at least one leaf
wide, in bounds, with 2^(d+1) windows of this width tiling the array. -/
def winOK (chunk : Nat) (s : Items) (b e : Int) (d : Nat) : Prop :=
  0 < chunk ∧ 0 ≤ b ∧ (chunk : Int) ≤ e - b ∧ (e - b) ∣ b ∧ e ≤ (s.length : Int) ∧
  (e - b) * 2 ^ (d + 1) = (s.length : Int) ∧ capShape chunk s

theorem winOK_main (chunk : Nat) (s : Items) (b e : Int) (d : Nat)
    (h : winOK chunk s b e d) :
    0 ≤ pma.sib_begin b e ∧
    pma.sib_begin b e + (e - b) ≤ (s.length : Int) ∧
    pma.par_begin b e ≤ b ∧ e ≤ pma.par_end b e ∧
    0 ≤ pma.par_begin b e ∧ pma.par_end b e ≤ (s.length : Int) ∧
    pma.par_end b e - pma.par_begin b e = 2 * (e - b) ∧
    (2 * (e - b)) ∣ pma.par_begin b e ∧
    (pma.par_begin b e = b ∧ pma.par_end b e = e + (e - b) ∧ pma.sib_begin b e = e ∨
      pma.par_begin b e = b - (e - b) ∧ pma.par_end b e = e ∧
        pma.sib_begin b e = b - (e - b)) := by
  obtain ⟨hc, hb0, hcw, hdvd, hel, hP, hcap⟩ := h
  obtain ⟨Q, hQ⟩ : ∃ q, (2 : Int) ^ d = q := ⟨_, rfl⟩
  have hQ0 : 0 < Q := by rw [← hQ]; positivity
  have hP2 : (2 : Int) ^ (d + 1) = 2 * Q := by rw [pow_succ, hQ]; ring
  set w := e - b with hwdef
  have hw : 0 < w := lt_of_lt_of_le (by exact_mod_cast hc) hcw
  obtain ⟨a, ha⟩ := hdvd
  have hdiv : b / w = a := by rw [ha]; exact Int.mul_ediv_cancel_left a (ne_of_gt hw)
  have ha0 : 0 ≤ a := by
    by_contra hneg
    push_neg at hneg
    have : w * a < 0 := mul_neg_of_pos_of_neg hw hneg
    omega
  have hlen2 : w * (2 * Q) = (s.length : Int) := by rw [← hP2, hP]
  have hee : w * (a + 1) = e := by
    have h1 : w * (a + 1) = w * a + w := by ring
    rw [h1, ← ha]
    omega
  have haP : a + 1 ≤ 2 * Q := by
    have h1 : w * (a + 1) ≤ w * (2 * Q) := by rw [hee, hlen2]; exact hel
    exact le_of_mul_le_mul_left h1 hw
  rcases Int.emod_two_eq_zero_or_one a with hpar | hpar
  · obtain ⟨c, hc2⟩ : ∃ c, a = 2 * c := ⟨a / 2, by omega⟩
    have hcond : ((b / w) % 2 == 0) = true := by
      rw [hdiv, hpar]
      rfl
    have hsib : pma.sib_begin b e = e := by
      rw [pma.sib_begin, ← hwdef, hcond]
      simp
    have hpb : pma.par_begin b e = b := by
      rw [pma.par_begin, ← hwdef, hcond]
      simp
    have hpe : pma.par_end b e = e + w := by
      rw [pma.par_end, ← hwdef, hcond]
      simp
    have ha2P : a + 2 ≤ 2 * Q := by omega
    have hepw : e + w ≤ (s.length : Int) := by
      have h1 : w * (a + 2) ≤ w * (2 * Q) :=
        mul_le_mul_of_nonneg_left ha2P (le_of_lt hw)
      have h2 : w * (a + 2) = e + w := by
        have : w * (a + 2) = w * (a + 1) + w := by ring
        rw [this, hee]
      rw [h2, hlen2] at h1
      exact h1
    refine ⟨by rw [hsib]; omega, by rw [hsib]; omega, by rw [hpb],
      by rw [hpe]; omega, by rw [hpb]; omega, by rw [hpe]; omega,
      by rw [hpb, hpe]; omega, ?_, Or.inl ⟨hpb, by rw [hpe], hsib⟩⟩
    rw [hpb]
    exact ⟨c, by rw [ha, hc2]; ring⟩
  · obtain ⟨c, hc2⟩ : ∃ c, a = 2 * c + 1 := ⟨a / 2, by omega⟩
    have hcond : ((b / w) % 2 == 0) = false := by
      rw [hdiv, hpar]
      rfl
    have hsib : pma.sib_begin b e = b - w := by
      rw [pma.sib_begin, ← hwdef, hcond]
      simp
    have hpb : pma.par_begin b e = b - w := by
      rw [pma.par_begin, ← hwdef, hcond]
      simp
    have hpe : pma.par_end b e = e := by
      rw [pma.par_end, ← hwdef, hcond]
      simp
    have hbw : b - w = w * (2 * c) := by
      have : w * (2 * c) = w * a - w := by rw [hc2]; ring
      rw [this, ← ha]
    have hbw0 : 0 ≤ b - w := by
      have hc0 : 0 ≤ c := by omega
      rw [hbw]
      positivity
    refine ⟨by rw [hsib]; exact hbw0, by rw [hsib]; omega, by rw [hpb]; omega,
      by rw [hpe], by rw [hpb]; exact hbw0, by rw [hpe]; omega,
      by rw [hpb, hpe]; omega, ?_, Or.inr ⟨hpb, hpe, hsib⟩⟩
    rw [hpb]
    exact ⟨c, by rw [hbw]; ring⟩

theorem winOK_succ (chunk : Nat) (s : Items) (b e : Int) (d : Nat)
    (h : winOK chunk s b e (d + 1)) :
    winOK chunk s (pma.par_begin b e) (pma.par_end b e) d := by
  obtain ⟨h1, h2, h3, h4, h5, h6, h7, h8, _⟩ := winOK_main chunk s b e (d + 1) h
  obtain ⟨hc, hb0, hcw, hdvd, hel, hP, hcap⟩ := h
  refine ⟨hc, h5, by omega, by rw [show pma.par_end b e - pma.par_begin b e = 2 * (e - b) from h7]; exact h8, h6, ?_, hcap⟩
  rw [h7, ← hP]
  ring

theorem winOK_zero (chunk : Nat) (s : Items) (b e : Int) (h : winOK chunk s b e 0) :
    pma.par_begin b e = 0 ∧ pma.par_end b e = (s.length : Int) := by
  obtain ⟨h1, h2, h3, h4, h5, h6, h7, h8, _⟩ := winOK_main chunk s b e 0 h
  obtain ⟨hc, hb0, hcw, hdvd, hel, hP, hcap⟩ := h
  have hp1 : (2 : Int) ^ (0 + 1) = 2 := by norm_num
  rw [hp1] at hP
  omega

/-! ### Threshold facts -/

theorem lower_t_zero (chunk : Nat) (s : Items) : lower_t chunk s 0 = 1/2 := by
  unfold lower_t
  norm_num

theorem upper_t_zero (chunk : Nat) (s : Items) : upper_t chunk s 0 = 3/4 := by
  unfold upper_t
  norm_num

theorem tree_height_eq (chunk : Nat) (s : Items) (hh : Nat) (hc : 0 < chunk)
    (hlen : s.length = chunk * 2 ^ hh) : tree_height chunk s = hh := by
  unfold tree_height
  rw [hlen, Nat.mul_div_cancel_left _ hc]
  exact Nat.log2_two_pow

theorem upper_t_lt_one (chunk : Nat) (s : Items) (d hh : Nat) (hc : 0 < chunk)
    (hlen : s.length = chunk * 2 ^ hh) (hd : d < hh) :
    upper_t chunk s d < 1 := by
  unfold upper_t
  rw [tree_height_eq chunk s hh hc hlen]
  have hh0 : (0 : ℚ) < (hh : ℚ) := by
    have : 0 < hh := by omega
    exact_mod_cast this
  have : (d : ℚ) / (hh : ℚ) < 1 := by
    rw [div_lt_one hh0]
    exact_mod_cast hd
  linarith

theorem winOK_depth_lt (chunk : Nat) (s : Items) (b e : Int) (d : Nat) (hh : Nat)
    (h : winOK chunk s b e d) (h1 : 1 ≤ hh) (hlen : s.length = chunk * 2 ^ hh) :
    d < hh := by
  obtain ⟨hc, hb0, hcw, hdvd, hel, hP, hcap⟩ := h
  have hcast : ((chunk : Int)) * 2 ^ (d + 1) ≤ (e - b) * 2 ^ (d + 1) := by
    have : (0 : Int) < 2 ^ (d + 1) := by positivity
    exact mul_le_mul_of_nonneg_right hcw (by positivity)
  rw [hP] at hcast
  have hl2 : ((s.length : Int)) = (chunk : Int) * 2 ^ hh := by
    rw [hlen]
    push_cast
    ring
  rw [hl2] at hcast
  have hpow : (2 : Int) ^ (d + 1) ≤ 2 ^ hh := by
    have hc' : (0 : Int) < (chunk : Int) := by exact_mod_cast hc
    exact le_of_mul_le_mul_left hcast hc'
  have : d + 1 ≤ hh := by
    by_contra hcon
    push_neg at hcon
    have : (2 : Int) ^ hh < 2 ^ (d + 1) :=
      pow_lt_pow_right₀ (by norm_num) (by omega)
    omega
  omega

/-! ### Count arithmetic -/

theorem count_items_le (s : Items) (b e : Int) :
    count_items s b e ≤ (e - b).toNat := by
  unfold count_items
  calc ((s.drop b.toNat).take (e - b).toNat).countP (fun o => o.isSome)
      ≤ ((s.drop b.toNat).take (e - b).toNat).length := List.countP_le_length _
    _ ≤ (e - b).toNat := List.length_take_le _ _

theorem count_items_split (s : Items) (b m e : Int) (hb : 0 ≤ b) (hbm : b ≤ m)
    (hme : m ≤ e) :
    count_items s b e = count_items s b m + count_items s m e := by
  unfold count_items
  have hsplit : (s.drop b.toNat).take (e - b).toNat =
      (s.drop b.toNat).take (m - b).toNat ++ (s.drop m.toNat).take (e - m).toNat := by
    have h1 : (e - b).toNat = (m - b).toNat + (e - m).toNat := by omega
    rw [h1, List.take_add]
    congr 1
    rw [List.drop_drop]
    rw [show b.toNat + (m - b).toNat = m.toNat by omega]
  rw [hsplit, List.countP_append]

theorem density_upper_bound (chunk : Nat) (s : Items) (b e : Int) (d : Nat) (accum : Nat)
    (hok : winOK chunk s b e d)
    (hbal : pma.scan_density s b e accum ≤ upper_t chunk s d) :
    ((accum + count_items s (pma.sib_begin b e) (pma.sib_begin b e + (e - b)) : Nat) : Int) <
      (e - b) * 2 := by
  obtain ⟨hh, hh1, hlen⟩ := hok.2.2.2.2.2.2
  have hd := winOK_depth_lt chunk s b e d hh hok hh1 hlen
  have hup : upper_t chunk s d < 1 := upper_t_lt_one chunk s d hh hok.1 hlen hd
  have hw : (0 : Int) < e - b := lt_of_lt_of_le (by exact_mod_cast hok.1) hok.2.2.1
  have hy : (0 : ℚ) < (((e - b) * 2 : Int) : ℚ) := by
    have : (0 : Int) < (e - b) * 2 := by omega
    exact_mod_cast this
  rw [pma.scan_density] at hbal
  have hx := (div_le_iff hy).mp hbal
  have hxy : ((accum + count_items s (pma.sib_begin b e)
      (pma.sib_begin b e + (e - b)) : Nat) : ℚ) < (((e - b) * 2 : Int) : ℚ) := by
    calc ((accum + count_items s (pma.sib_begin b e)
          (pma.sib_begin b e + (e - b)) : Nat) : ℚ)
        ≤ upper_t chunk s d * (((e - b) * 2 : Int) : ℚ) := hx
      _ < 1 * (((e - b) * 2 : Int) : ℚ) := by
          exact mul_lt_mul_of_pos_right hup hy
      _ = (((e - b) * 2 : Int) : ℚ) := one_mul _
  exact_mod_cast hxy

/-- In the balanced branch, rebalancing the parent keeps the value sequence and
the capacity, and the store is not full. -/
theorem scan_balanced (chunk : Nat) (s : Items) (b e : Int) (d : Nat) (accum : Nat)
    (hok : winOK chunk s b e d)
    (hacc : count_items s b e ≤ accum)
    (hbal : pma.scan_density s b e accum ≤ upper_t chunk s d) :
    vals (pma.rebalance_parent s b e) = vals s ∧
    (pma.rebalance_parent s b e).length = s.length ∧
    (vals s).length < s.length := by
  obtain ⟨hs1, hs2, hs3, hs4, hs5, hs6, hs7, hs8, hcases⟩ := winOK_main chunk s b e d hok
  have hw : (0 : Int) < e - b := by
    obtain ⟨hc, hb0, hcw, _, _, _, _⟩ := hok
    exact lt_of_lt_of_le (by exact_mod_cast hc) hcw
  obtain ⟨hr1, hr2⟩ := rebalance_parent_spec s b e hs5 (by omega) hs6
  refine ⟨hr1, hr2, ?_⟩
  have hcount : count_items s (pma.par_begin b e) (pma.par_end b e) ≤
      accum + count_items s (pma.sib_begin b e) (pma.sib_begin b e + (e - b)) := by
    rcases hcases with ⟨hpb, hpe, hsb⟩ | ⟨hpb, hpe, hsb⟩
    · rw [hpb, hpe, hsb]
      rw [count_items_split s b e (e + (e - b)) (by omega) (by omega) (by omega)]
      have : e + (e - b) = e + (e - b) := rfl
      omega
    · rw [hpb, hpe, hsb]
      rw [count_items_split s (b - (e - b)) b e (by omega) (by omega) (by omega)]
      have heq : b - (e - b) + (e - b) = b := by omega
      rw [heq]
      omega
  have hdb := density_upper_bound chunk s b e d accum hok hbal
  have hvs := vals_window_split s (pma.par_begin b e) (pma.par_end b e) hs5 (by omega) hs6
  have hL1 : (vals (s.take (pma.par_begin b e).toNat)).length ≤ (pma.par_begin b e).toNat := by
    calc (vals (s.take (pma.par_begin b e).toNat)).length
        ≤ (s.take (pma.par_begin b e).toNat).length := vals_length_le _
      _ ≤ (pma.par_begin b e).toNat := List.length_take_le _ _
  have hL3 : (vals (s.drop (pma.par_end b e).toNat)).length ≤
      s.length - (pma.par_end b e).toNat := by
    calc (vals (s.drop (pma.par_end b e).toNat)).length
        ≤ (s.drop (pma.par_end b e).toNat).length := vals_length_le _
      _ = s.length - (pma.par_end b e).toNat := List.length_drop _ _
  have hL2 : (vals ((s.drop (pma.par_begin b e).toNat).take
      (pma.par_end b e - pma.par_begin b e).toNat)).length =
      count_items s (pma.par_begin b e) (pma.par_end b e) :=
    (count_items_eq_vals_length s (pma.par_begin b e) (pma.par_end b e)).symm
  have hvl : (vals s).length =
      (vals (s.take (pma.par_begin b e).toNat)).length +
      (vals ((s.drop (pma.par_begin b e).toNat).take
        (pma.par_end b e - pma.par_begin b e).toNat)).length +
      (vals (s.drop (pma.par_end b e).toNat)).length := by
    rw [hvs]
    simp only [List.length_append]
  rw [hvl, hL2]
  omega

theorem vals_length_eq_count_full (s : Items) :
    (vals s).length = count_items s 0 (s.length : Int) := by
  unfold count_items
  rw [vals_length]
  have h1 : (0 : Int).toNat = 0 := rfl
  have h2 : ((s.length : Int) - 0).toNat = s.length := by omega
  rw [h1, h2, List.drop_zero, List.take_length]

theorem parent_count_le (chunk : Nat) (s : Items) (b e : Int) (d : Nat) (accum : Nat)
    (hok : winOK chunk s b e d)
    (hacc : count_items s b e ≤ accum) :
    count_items s (pma.par_begin b e) (pma.par_end b e) ≤
      accum + count_items s (pma.sib_begin b e) (pma.sib_begin b e + (e - b)) := by
  obtain ⟨hs1, hs2, hs3, hs4, hs5, hs6, hs7, hs8, hcases⟩ := winOK_main chunk s b e d hok
  have hw : (0 : Int) < e - b := lt_of_lt_of_le (by exact_mod_cast hok.1) hok.2.2.1
  rcases hcases with ⟨hpb, hpe, hsb⟩ | ⟨hpb, hpe, hsb⟩
  · rw [hpb, hpe, hsb]
    rw [count_items_split s b e (e + (e - b)) (by omega) (by omega) (by omega)]
    omega
  · rw [hpb, hpe, hsb]
    rw [count_items_split s (b - (e - b)) b e (by omega) (by omega) (by omega)]
    have heq : b - (e - b) + (e - b) = b := by omega
    rw [heq]
    omega

theorem rearrange_full (K : Nat) (buf : List Int) (hnk : buf.length ≤ K) :
    vals (pma.rearrange_items (List.replicate K none) 0 (K : Int) buf) = buf ∧
    (pma.rearrange_items (List.replicate K none) 0 (K : Int) buf).length = K := by
  have h := rearrange_cleared_vals [] [] K 0 (K : Int) buf (by simp) (by omega) hnk
  simpa [vals] using h

/-- Full analysis of the depth-0 branch of scan: everything is collected, the
capacity doubles exactly when the density is above the root upper threshold,
halves exactly when it is below the root lower threshold and the capacity is
above the floor, and the items are redistributed over the whole new capacity. -/
theorem scan_root_spec (chunk : Nat) (s : Items) (b e : Int) (accum : Nat)
    (hok : winOK chunk s b e 0)
    (hacc : count_items s b e ≤ accum)
    (hout : ¬ (lower_t chunk s 0 ≤ pma.scan_density s b e accum ∧
        pma.scan_density s b e accum ≤ upper_t chunk s 0)) :
    vals (pma.scan_root chunk s b e accum) = vals s ∧
    ((pma.scan_root chunk s b e accum).length =
      if pma.scan_density s b e accum > upper_t chunk s 0 then 2 * s.length
      else if pma.scan_density s b e accum < lower_t chunk s 0 ∧ s.length > chunk * 2 then
        s.length / 2
      else s.length) ∧
    capShape chunk (pma.scan_root chunk s b e accum) ∧
    (vals s).length < (pma.scan_root chunk s b e accum).length := by
  have hw : (0 : Int) < e - b := lt_of_lt_of_le (by exact_mod_cast hok.1) hok.2.2.1
  have hlen2 : (e - b) * 2 = (s.length : Int) := by
    have h := hok.2.2.2.2.2.1
    norm_num at h
    exact h
  have hlenpos : 0 < s.length := by omega
  obtain ⟨hh, hh1, hhlen⟩ := hok.2.2.2.2.2.2
  have hg := get_items_spec s 0 (s.length : Int) (by omega) (by omega) (le_refl _)
  have hr1 : (pma.get_items s 0 (s.length : Int)).1 = vals s := by
    rw [hg.1]
    have h1 : (0 : Int).toNat = 0 := rfl
    have h2 : ((s.length : Int) - 0).toNat = s.length := by omega
    rw [h1, h2, List.drop_zero, List.take_length]
  have hr2 : (pma.get_items s 0 (s.length : Int)).2 = List.replicate s.length none := by
    rw [hg.2]
    have h1 : (0 : Int).toNat = 0 := rfl
    have h2 : ((s.length : Int) - 0).toNat = s.length := by omega
    have h3 : ((s.length : Int)).toNat = s.length := by omega
    rw [h1, h2, h3, List.take_zero, List.drop_length]
    simp
  have hcnt : (vals s).length ≤
      accum + count_items s (pma.sib_begin b e) (pma.sib_begin b e + (e - b)) := by
    obtain ⟨hz1, hz2⟩ := winOK_zero chunk s b e hok
    rw [vals_length_eq_count_full, ← hz1, ← hz2]
    exact parent_count_le chunk s b e 0 accum hok hacc
  have hnle : (vals s).length ≤ s.length := vals_length_le s
  set den := pma.scan_density s b e accum with hden
  set r := pma.get_items s 0 (s.length : Int) with hrdef
  set S1 := if den > upper_t chunk s 0 then r.2 ++ List.replicate r.2.length none
    else if den < lower_t chunk s 0 ∧ s.length > chunk * 2 then r.2.take (r.2.length / 2)
    else r.2 with hS1
  have hunf : pma.scan_root chunk s b e accum =
      if r.1 ≠ [] then pma.rearrange_items S1 0 (S1.length : Int) r.1 else S1 := rfl
  have hdenpos : (0 : ℚ) < (((e - b) * 2 : Int) : ℚ) := by
    have : (0 : Int) < (e - b) * 2 := by omega
    exact_mod_cast this
  rcases not_and_or.mp hout with hlow | hup
  · have hlt : den < lower_t chunk s 0 := lt_of_not_le hlow
    have hngt : ¬ den > upper_t chunk s 0 := by
      rw [lower_t_zero] at hlt
      rw [upper_t_zero]
      intro hcon
      linarith
    have hhalfbound : 2 * (vals s).length < s.length := by
      have hlt2 := hlt
      rw [lower_t_zero] at hlt2
      rw [hden, pma.scan_density] at hlt2
      have hx := (div_lt_iff hdenpos).mp hlt2
      have hx3 : ((accum + count_items s (pma.sib_begin b e)
          (pma.sib_begin b e + (e - b)) : Nat) : Int) * 2 < (e - b) * 2 := by
        have hq : ((accum + count_items s (pma.sib_begin b e)
            (pma.sib_begin b e + (e - b)) : Nat) : ℚ) * 2 < (((e - b) * 2 : Int) : ℚ) := by
          linarith
        exact_mod_cast hq
      omega
    by_cases hbig : s.length > chunk * 2
    · have hS1v : S1 = List.replicate (s.length / 2) none := by
        rw [hS1, if_neg hngt, if_pos ⟨hlt, hbig⟩, hr2]
        rw [List.length_replicate, List.take_replicate]
        congr 1
        omega
      have heven : s.length = 2 * (e - b).toNat := by omega
      have hnlt : (vals s).length < s.length / 2 := by omega
      have hh2 : 2 ≤ hh := by
        rcases Nat.lt_or_ge hh 2 with hcon | hges
        · have hone : hh = 1 := by omega
          rw [hone, pow_one] at hhlen
          omega
        · exact hges
      have hlhalf : s.length / 2 = chunk * 2 ^ (hh - 1) := by
        have hpow : (2 : Nat) ^ hh = 2 * 2 ^ (hh - 1) := by
          conv_lhs => rw [show hh = (hh - 1) + 1 from by omega]
          rw [pow_succ]
          ring
        have hdob : s.length = 2 * (chunk * 2 ^ (hh - 1)) := by
          rw [hhlen, hpow]
          ring
        omega
      rw [hunf]
      by_cases hne : r.1 ≠ []
      · rw [if_pos hne, hr1, hS1v, List.length_replicate]
        have hre := rearrange_full (s.length / 2) (vals s) (by omega)
        refine ⟨hre.1, ?_, ?_, ?_⟩
        · rw [hre.2, if_neg hngt, if_pos ⟨hlt, hbig⟩]
        · exact ⟨hh - 1, by omega, by rw [hre.2, hlhalf]⟩
        · rw [hre.2]
          exact hnlt
      · rw [if_neg hne, hS1v]
        rw [hr1] at hne
        have hnil : vals s = [] := not_not.mp (by simpa using hne)
        refine ⟨?_, ?_, ?_, ?_⟩
        · rw [hnil]
          exact vals_replicate _
        · rw [List.length_replicate, if_neg hngt, if_pos ⟨hlt, hbig⟩]
        · exact ⟨hh - 1, by omega, by rw [List.length_replicate, hlhalf]⟩
        · rw [List.length_replicate, hnil]
          simpa using (by omega : 0 < s.length / 2)
    · have hS1v : S1 = List.replicate s.length none := by
        rw [hS1, if_neg hngt, if_neg (by tauto :
          ¬ (den < lower_t chunk s 0 ∧ s.length > chunk * 2))]
        exact hr2
      have hnlt : (vals s).length < s.length := by omega
      rw [hunf]
      by_cases hne : r.1 ≠ []
      · rw [if_pos hne, hr1, hS1v, List.length_replicate]
        have hre := rearrange_full s.length (vals s) (by omega)
        refine ⟨hre.1, ?_, ?_, ?_⟩
        · rw [hre.2, if_neg hngt, if_neg (by tauto :
            ¬ (den < lower_t chunk s 0 ∧ s.length > chunk * 2))]
        · exact ⟨hh, hh1, by rw [hre.2, hhlen]⟩
        · rw [hre.2]
          exact hnlt
      · rw [if_neg hne, hS1v]
        rw [hr1] at hne
        have hnil : vals s = [] := not_not.mp (by simpa using hne)
        refine ⟨?_, ?_, ?_, ?_⟩
        · rw [hnil]
          exact vals_replicate _
        · rw [List.length_replicate, if_neg hngt, if_neg (by tauto :
            ¬ (den < lower_t chunk s 0 ∧ s.length > chunk * 2))]
        · exact ⟨hh, hh1, by rw [List.length_replicate, hhlen]⟩
        · rw [List.length_replicate, hnil]
          simpa using hlenpos
  · have hgt : den > upper_t chunk s 0 := lt_of_not_le hup
    have hS1v : S1 = List.replicate (2 * s.length) none := by
      rw [hS1, if_pos hgt, hr2]
      rw [List.length_replicate, ← List.replicate_add]
      congr 1
      omega
    have hnlt : (vals s).length < 2 * s.length := by omega
    rw [hunf]
    by_cases hne : r.1 ≠ []
    · rw [if_pos hne, hr1, hS1v, List.length_replicate]
      have hre := rearrange_full (2 * s.length) (vals s) (by omega)
      refine ⟨hre.1, ?_, ?_, ?_⟩
      · rw [hre.2, if_pos hgt]
      · exact ⟨hh + 1, by omega, by rw [hre.2, hhlen, pow_succ]; ring⟩
      · rw [hre.2]
        exact hnlt
    · rw [if_neg hne, hS1v]
      rw [hr1] at hne
      have hnil : vals s = [] := not_not.mp (by simpa using hne)
      refine ⟨?_, ?_, ?_, ?_⟩
      · rw [hnil]
        exact vals_replicate _
      · rw [List.length_replicate, if_pos hgt]
      · exact ⟨hh + 1, by omega, by rw [List.length_replicate, hhlen, pow_succ]; ring⟩
      · rw [List.length_replicate, hnil]
        simpa using (by omega : 0 < 2 * s.length)

/-- scan preserves the occupied-value sequence and the capacity shape, and
always leaves at least one empty slot. -/
theorem scan_good (chunk : Nat) :
    ∀ (d : Nat) (s : Items) (b e : Int) (accum : Nat),
      winOK chunk s b e d → count_items s b e ≤ accum →
      vals (pma.scan chunk d s b e accum) = vals s ∧
      capShape chunk (pma.scan chunk d s b e accum) ∧
      (vals (pma.scan chunk d s b e accum)).length < (pma.scan chunk d s b e accum).length := by
  intro d
  induction d with
  | zero =>
    intro s b e accum hok hacc
    rw [pma.scan]
    by_cases hbal : lower_t chunk s 0 ≤ pma.scan_density s b e accum ∧
        pma.scan_density s b e accum ≤ upper_t chunk s 0
    · rw [if_pos hbal]
      obtain ⟨h1, h2, h3⟩ := scan_balanced chunk s b e 0 accum hok hacc hbal.2
      refine ⟨h1, ?_, ?_⟩
      · obtain ⟨hh, hh1, hlen⟩ := hok.2.2.2.2.2.2
        exact ⟨hh, hh1, by rw [h2]; exact hlen⟩
      · rw [h1, h2]
        exact h3
    · rw [if_neg hbal]
      obtain ⟨h1, h2, h3, h4⟩ := scan_root_spec chunk s b e accum hok hacc hbal
      exact ⟨h1, h3, by rw [h1]; exact h4⟩
  | succ d ih =>
    intro s b e accum hok hacc
    rw [pma.scan]
    by_cases hbal : lower_t chunk s (d+1) ≤ pma.scan_density s b e accum ∧
        pma.scan_density s b e accum ≤ upper_t chunk s (d+1)
    · rw [if_pos hbal]
      obtain ⟨h1, h2, h3⟩ := scan_balanced chunk s b e (d+1) accum hok hacc hbal.2
      refine ⟨h1, ?_, ?_⟩
      · obtain ⟨hh, hh1, hlen⟩ := hok.2.2.2.2.2.2
        exact ⟨hh, hh1, by rw [h2]; exact hlen⟩
      · rw [h1, h2]
        exact h3
    · rw [if_neg hbal]
      exact ih s (pma.par_begin b e) (pma.par_end b e)
        (accum + count_items s (pma.sib_begin b e) (pma.sib_begin b e + (e - b)))
        (winOK_succ chunk s b e d hok)
        (parent_count_le chunk s b e (d+1) accum hok hacc)

/-! ### Specification of the gap scans and closest_gap -/

theorem gapRight_spec (s : Items) :
    ∀ fuel (j : Int), ((s.length : Int) - j).toNat < fuel → 0 ≤ j →
      j ≤ (s.length : Int) →
      j ≤ gapRight s fuel j ∧ gapRight s fuel j ≤ (s.length : Int) ∧
      (∀ k, j ≤ k → k < gapRight s fuel j → (slotAt s k).isSome) ∧
      (gapRight s fuel j < (s.length : Int) → (slotAt s (gapRight s fuel j)).isNone) := by
  intro fuel
  induction fuel with
  | zero => intro j hf hj hjl; omega
  | succ f ih =>
    intro j hf hj hjl
    rw [gapRight]
    by_cases hc : j < (s.length : Int) ∧ (slotAt s j).isSome
    · rw [if_pos hc]
      obtain ⟨h1, h2, h3, h4⟩ := ih (j + 1) (by omega) (by omega) (by omega)
      refine ⟨by omega, h2, ?_, h4⟩
      intro k hk1 hk2
      rcases eq_or_lt_of_le hk1 with h | h
      · rw [← h]; exact hc.2
      · exact h3 k (by omega) hk2
    · rw [if_neg hc]
      refine ⟨le_refl j, hjl, by intro k h1 h2; omega, ?_⟩
      intro hlt
      rcases Decidable.not_and_iff_or_not.mp hc with h | h
      · omega
      · simpa [Option.isNone_iff_eq_none, Option.isSome_iff_ne_none] using h

theorem gapLeft_spec (s : Items) :
    ∀ fuel (j : Int), (j + 1).toNat < fuel → (-1 : Int) ≤ j →
      gapLeft s fuel j ≤ j ∧ (-1 : Int) ≤ gapLeft s fuel j ∧
      (∀ k, k ≤ j → gapLeft s fuel j < k → (slotAt s k).isSome) ∧
      (0 ≤ gapLeft s fuel j → (slotAt s (gapLeft s fuel j)).isNone) := by
  intro fuel
  induction fuel with
  | zero => intro j hf hj; omega
  | succ f ih =>
    intro j hf hj
    rw [gapLeft]
    by_cases hc : 0 ≤ j ∧ (slotAt s j).isSome
    · rw [if_pos hc]
      obtain ⟨h1, h2, h3, h4⟩ := ih (j - 1) (by omega) (by omega)
      refine ⟨by omega, h2, ?_, h4⟩
      intro k hk1 hk2
      rcases eq_or_lt_of_le hk1 with h | h
      · rw [h]; exact hc.2
      · exact h3 k (by omega) hk2
    · rw [if_neg hc]
      refine ⟨le_refl j, hj, by intro k h1 h2; omega, ?_⟩
      intro h0
      rcases Decidable.not_and_iff_or_not.mp hc with h | h
      · omega
      · simpa [Option.isNone_iff_eq_none, Option.isSome_iff_ne_none] using h

theorem closest_gap_spec (s : Items) (i : Int) (hi0 : 0 ≤ i) (hi1 : i < (s.length : Int))
    (hocc : (slotAt s i).isSome)
    (hempty : ∃ p : Int, 0 ≤ p ∧ p < (s.length : Int) ∧ slotAt s p = none) :
    0 ≤ (pma.closest_gap s i).1 ∧ (pma.closest_gap s i).1 < (s.length : Int) ∧
    slotAt s (pma.closest_gap s i).1 = none ∧
    ((pma.closest_gap s i).2 = true → i < (pma.closest_gap s i).1 ∧
      ∀ k, i < k → k < (pma.closest_gap s i).1 → (slotAt s k).isSome) ∧
    ((pma.closest_gap s i).2 = false → (pma.closest_gap s i).1 < i ∧
      ∀ k, (pma.closest_gap s i).1 < k → k < i → (slotAt s k).isSome) := by
  obtain ⟨hr1, hr2, hr3, hr4⟩ :=
    gapRight_spec s (s.length + 1) (i + 1) (by omega) (by omega) (by omega)
  obtain ⟨hl1, hl2, hl3, hl4⟩ := gapLeft_spec s (s.length + 1) (i - 1) (by omega) (by omega)
  set cr := gapRight s (s.length + 1) (i + 1) with hcr
  set cl := gapLeft s (s.length + 1) (i - 1) with hcl
  obtain ⟨p, hp0, hp1, hp⟩ := hempty
  have hpne : p ≠ i := by
    intro hcon
    rw [← hcon, hp] at hocc
    simp at hocc
  have hside : cr < (s.length : Int) ∨ 0 ≤ cl := by
    rcases lt_trichotomy p i with h | h | h
    · right
      by_contra hcon
      push_neg at hcon
      have h2 := hl3 p (by omega) (by omega)
      rw [hp] at h2
      simp at h2
    · exact absurd h hpne
    · left
      by_contra hcon
      push_neg at hcon
      have h2 := hr3 p (by omega) (by omega)
      rw [hp] at h2
      simp at h2
  have hmain : pma.closest_gap s i =
      if cl < 0 then (cr, true)
      else if cr ≥ (s.length : Int) then (cl, false)
      else if cr - i ≤ i - cl then (cr, true) else (cl, false) := rfl
  by_cases h1 : cl < 0
  · rw [hmain, if_pos h1]
    have hcrl : cr < (s.length : Int) := by omega
    refine ⟨by omega, hcrl, ?_, ?_, ?_⟩
    · simpa [Option.isNone_iff_eq_none] using hr4 hcrl
    · intro _
      exact ⟨by omega, fun k hk1 hk2 => hr3 k (by omega) (by omega)⟩
    · intro hcon
      exact Bool.noConfusion hcon
  · rw [hmain, if_neg h1]
    by_cases h2 : cr ≥ (s.length : Int)
    · rw [if_pos h2]
      have hcl0 : 0 ≤ cl := by omega
      refine ⟨hcl0, by omega, ?_, ?_, ?_⟩
      · simpa [Option.isNone_iff_eq_none] using hl4 hcl0
      · intro hcon
        exact Bool.noConfusion hcon
      · intro _
        exact ⟨by omega, fun k hk1 hk2 => hl3 k (by omega) (by omega)⟩
    · rw [if_neg h2]
      push_neg at h1 h2
      by_cases h3 : cr - i ≤ i - cl
      · rw [if_pos h3]
        refine ⟨by omega, by omega, ?_, ?_, ?_⟩
        · simpa [Option.isNone_iff_eq_none] using hr4 (by omega)
        · intro _
          exact ⟨by omega, fun k hk1 hk2 => hr3 k (by omega) (by omega)⟩
        · intro hcon
          exact Bool.noConfusion hcon
      · rw [if_neg h3]
        refine ⟨by omega, by omega, ?_, ?_, ?_⟩
        · simpa [Option.isNone_iff_eq_none] using hl4 (by omega)
        · intro hcon
          exact Bool.noConfusion hcon
        · intro _
          exact ⟨by omega, fun k hk1 hk2 => hl3 k (by omega) (by omega)⟩

/-! ### Characterization of the shift loops -/

theorem take_set_of_le (l : Items) (m n : Nat) (x : Option Int) (h : n ≤ m) :
    (l.set m x).take n = l.take n := by
  rcases lt_or_le m l.length with hm | hm
  · rw [List.set_eq_take_cons_drop x hm]
    rw [List.take_append_eq_append_take]
    rw [List.take_take, min_eq_left h, List.length_take, min_eq_left (le_of_lt hm)]
    simp [Nat.sub_eq_zero_of_le h]
  · rw [List.set_eq_of_length_le hm]

theorem drop_set_sub (l : Items) (m n : Nat) (x : Option Int) (h : n ≤ m) :
    (l.set m x).drop n = (l.drop n).set (m - n) x := by
  rcases lt_or_le m l.length with hm | hm
  · rw [List.set_eq_take_cons_drop x hm]
    rw [List.drop_append_eq_append_drop, List.length_take, min_eq_left (le_of_lt hm)]
    have hmn : m - n < (l.drop n).length := by
      rw [List.length_drop]
      omega
    rw [List.set_eq_take_cons_drop x hmn]
    rw [List.drop_take, List.drop_drop]
    have h1 : n - m = 0 := by omega
    rw [h1, List.drop_zero]
    have h2 : n + (m - n + 1) = m + 1 := by omega
    rw [h2]
  · rw [List.set_eq_of_length_le hm, List.set_eq_of_length_le]
    rw [List.length_drop]
    omega

theorem slotAt_eq_getElem (s : Items) (i : Int) (h0 : 0 ≤ i) (h1 : i.toNat < s.length) :
    slotAt s i = s[i.toNat] := by
  rw [← slotAt_toNat s i h0, List.getD_eq_getElem?_getD, List.getElem?_eq_getElem h1,
    Option.getD_some]

theorem slotAt_swapSlots_right (s : Items) (i j : Int) (hj0 : 0 ≤ j)
    (hj1 : j < (s.length : Int)) :
    slotAt (swapSlots s i j) j = slotAt s i := by
  unfold swapSlots
  rw [slotAt_setSlot_self _ j _ hj0 (by rw [length_setSlot]; omega)]

theorem slotAt_swapSlots_left (s : Items) (i j : Int) (hi0 : 0 ≤ i)
    (hi1 : i < (s.length : Int)) (hne : i ≠ j) :
    slotAt (swapSlots s i j) i = slotAt s j := by
  unfold swapSlots
  rw [slotAt_setSlot_ne _ j i _ (Ne.symm hne), slotAt_setSlot_self _ i _ hi0 hi1]

theorem vals_set_some (r : Items) (p : Nat) (hp : p < r.length) (t : Int) :
    vals (r.set p (some t)) = vals (r.take p) ++ t :: vals (r.drop (p + 1)) := by
  rw [List.set_eq_take_cons_drop (some t) hp, vals_append, vals_cons_some]

theorem shift_right_go_char : ∀ (n : Nat) (s : Items) (f : Int), 0 ≤ f →
    f + n < (s.length : Int) →
    shift_right_go s f n (f + n) =
      s.take f.toNat ++ slotAt s (f + n) ::
        ((s.drop f.toNat).take n ++ s.drop (f.toNat + n + 1)) := by
  intro n
  induction n with
  | zero =>
    intro s f h0 h1
    show s = _
    have hfl : f.toNat < s.length := by omega
    have hs : slotAt s (f + (0 : Nat)) = s[f.toNat] := by
      rw [show f + ((0 : Nat) : Int) = f by push_cast; ring]
      exact slotAt_eq_getElem s f h0 hfl
    rw [hs, List.take_zero, List.nil_append]
    rw [show f.toNat + 0 + 1 = f.toNat + 1 by omega]
    rw [← List.drop_eq_getElem_cons hfl, List.take_append_drop]
  | succ n ih =>
    intro s f h0 h1
    have hlt : f < f + ((n : Nat) + 1 : Nat) := by push_cast; omega
    have hstep : shift_right_go s f (n + 1) (f + ((n : Nat) + 1 : Nat)) =
        shift_right_go (swapSlots s (f + (n + 1 : Nat)) (f + (n + 1 : Nat) - 1)) f n
          (f + (n + 1 : Nat) - 1) := by
      rw [shift_right_go, if_pos hlt]
    have hidx : f + ((n + 1 : Nat) : Int) - 1 = f + (n : Nat) := by push_cast; ring
    rw [hstep, hidx]
    set a := f + ((n + 1 : Nat) : Int) with hadef
    set b := f + ((n : Nat) : Int) with hbdef
    have hab : a = b + 1 := by rw [hadef, hbdef]; push_cast; ring
    have ha0 : 0 ≤ a := by omega
    have hb0 : 0 ≤ b := by omega
    have haN : a.toNat = f.toNat + n + 1 := by omega
    have hbN : b.toNat = f.toNat + n := by omega
    have ha1 : a < (s.length : Int) := by
      rw [hadef]
      exact h1
    have hb1 : b < (s.length : Int) := by omega
    have hswlen : (swapSlots s a b).length = s.length := length_swapSlots s a b
    have ihs := ih (swapSlots s a b) f h0 (by rw [hswlen]; omega)
    rw [hbdef] at ihs
    rw [ihs]
    have hswexp : swapSlots s a b = (s.set a.toNat (slotAt s b)).set b.toNat (slotAt s a) := by
      unfold swapSlots setSlot
      rw [if_pos ha0, if_pos hb0]
    have htake : (swapSlots s a b).take f.toNat = s.take f.toNat := by
      rw [hswexp, take_set_of_le _ _ _ _ (by omega), take_set_of_le _ _ _ _ (by omega)]
    have hslot : slotAt (swapSlots s a b) b = slotAt s a :=
      slotAt_swapSlots_right s a b hb0 hb1
    have hseg : ((swapSlots s a b).drop f.toNat).take n = (s.drop f.toNat).take n := by
      rw [hswexp]
      rw [drop_set_sub _ _ _ _ (by omega), drop_set_sub _ _ _ _ (by omega)]
      rw [take_set_of_le _ _ _ _ (by omega), take_set_of_le _ _ _ _ (by omega)]
    have hdrop : (swapSlots s a b).drop (f.toNat + n + 1) =
        slotAt s b :: s.drop (f.toNat + n + 2) := by
      rw [hswexp]
      rw [List.drop_set_of_lt _ _ (by omega)]
      rw [drop_set_sub _ _ _ _ (by omega)]
      have haN2 : a.toNat - (f.toNat + n + 1) = 0 := by omega
      rw [haN2]
      have hdc : s.drop (f.toNat + n + 1) = s[f.toNat + n + 1] :: s.drop (f.toNat + n + 2) := by
        rw [← List.drop_eq_getElem_cons (by omega)]
      rw [hdc]
      rw [List.set_cons_zero]
    rw [htake, hslot, hseg, hdrop]
    have hlast : (s.drop f.toNat).take (n + 1) =
        (s.drop f.toNat).take n ++ [s[f.toNat + n]] := by
      rw [List.take_succ]
      congr 1
      rw [List.getElem?_drop]
      rw [List.getElem?_eq_getElem (by omega)]
      rfl
    have hsb : slotAt s b = s[f.toNat + n] := by
      rw [slotAt_eq_getElem s b hb0 (by omega)]
      congr 1
    rw [hlast, hsb]
    rw [show f.toNat + (n + 1) + 1 = f.toNat + n + 2 by omega]
    simp only [List.append_assoc, List.singleton_append]

theorem shift_left_go_char : ∀ (n : Nat) (s : Items) (f : Int), 0 ≤ f - n →
    f < (s.length : Int) →
    shift_left_go s f n (f - n) =
      s.take (f - n).toNat ++
        ((s.drop ((f - n).toNat + 1)).take n ++ slotAt s (f - n) :: s.drop (f.toNat + 1)) := by
  intro n
  induction n with
  | zero =>
    intro s f h0 h1
    show s = _
    have hf0 : 0 ≤ f := by omega
    have hfl : f.toNat < s.length := by omega
    have hfe : f - ((0 : Nat) : Int) = f := by push_cast; ring
    rw [hfe]
    have hs : slotAt s f = s[f.toNat] := slotAt_eq_getElem s f hf0 hfl
    rw [hs, List.take_zero, List.nil_append]
    rw [← List.drop_eq_getElem_cons hfl, List.take_append_drop]
  | succ n ih =>
    intro s f h0 h1
    set a := f - ((n + 1 : Nat) : Int) with hadef
    have ha0 : 0 ≤ a := h0
    have hnc : ((n + 1 : Nat) : Int) = (n : Nat) + 1 := by push_cast; ring
    have hba : f - ((n : Nat) : Int) = a + 1 := by rw [hadef]; omega
    set b := a + 1 with hbdef
    have hb0 : 0 ≤ b := by omega
    have hbf : b ≤ f := by rw [hbdef, hadef]; omega
    have hlt : a < f := by rw [hadef]; omega
    have hstep : shift_left_go s f (n + 1) a =
        shift_left_go (swapSlots s a (a + 1)) f n (a + 1) := by
      rw [shift_left_go, if_pos hlt]
    rw [hstep, ← hbdef]
    have hfN : f.toNat = a.toNat + n + 1 := by omega
    have hbN : b.toNat = a.toNat + 1 := by omega
    have ha1 : a < (s.length : Int) := by omega
    have hb1 : b < (s.length : Int) := by omega
    have hswlen : (swapSlots s a b).length = s.length := length_swapSlots s a b
    have ihs := ih (swapSlots s a b) f (by omega) (by rw [hswlen]; omega)
    rw [hba] at ihs
    rw [ihs]
    have hswexp : swapSlots s a b = (s.set a.toNat (slotAt s b)).set b.toNat (slotAt s a) := by
      unfold swapSlots setSlot
      rw [if_pos ha0, if_pos hb0]
    have htake : (swapSlots s a b).take b.toNat = s.take a.toNat ++ [slotAt s b] := by
      rw [hswexp, take_set_of_le _ _ _ _ (by omega)]
      rw [hbN]
      exact take_set_succ s a.toNat (slotAt s b) (by omega)
    have hseg : ((swapSlots s a b).drop (b.toNat + 1)).take n =
        (s.drop (a.toNat + 2)).take n := by
      rw [hswexp]
      rw [List.drop_set_of_lt _ _ (by omega), List.drop_set_of_lt _ _ (by omega)]
      rw [show b.toNat + 1 = a.toNat + 2 by omega]
    have hslot : slotAt (swapSlots s a b) b = slotAt s a :=
      slotAt_swapSlots_right s a b hb0 hb1
    have hdrop : (swapSlots s a b).drop (f.toNat + 1) = s.drop (f.toNat + 1) := by
      rw [hswexp]
      rw [List.drop_set_of_lt _ _ (by omega), List.drop_set_of_lt _ _ (by omega)]
    rw [htake, hseg, hslot, hdrop]
    have hsb : slotAt s b = s[a.toNat + 1] := by
      rw [slotAt_eq_getElem s b hb0 (by omega)]
      congr 1
    have hfirst : (s.drop (a.toNat + 1)).take (n + 1) =
        s[a.toNat + 1] :: (s.drop (a.toNat + 2)).take n := by
      have hdc : s.drop (a.toNat + 1) = s[a.toNat + 1] :: s.drop (a.toNat + 2) := by
        rw [← List.drop_eq_getElem_cons (by omega)]
      rw [hdc, List.take_succ_cons]
    rw [hfirst, hsb]
    simp only [List.append_assoc, List.singleton_append, List.cons_append, List.nil_append]

/-! ### Length preservation of the shift loops and of insert -/

theorem length_shift_right_go : ∀ (n : Nat) (s : Items) (f t : Int),
    (shift_right_go s f n t).length = s.length := by
  intro n
  induction n with
  | zero => intro s f t; rfl
  | succ m ih =>
    intro s f t
    rw [shift_right_go]
    split
    · rw [ih, length_swapSlots]
    · rfl

theorem length_shift_left_go : ∀ (n : Nat) (s : Items) (f t : Int),
    (shift_left_go s f n t).length = s.length := by
  intro n
  induction n with
  | zero => intro s f t; rfl
  | succ m ih =>
    intro s f t
    rw [shift_left_go]
    split
    · rw [ih, length_swapSlots]
    · rfl

theorem length_insert (s : Items) (t i : Int) : (pma.insert s t i).length = s.length := by
  unfold pma.insert
  rcases h : slotAt s i with _ | v
  · exact length_setSlot s i (some t)
  · simp only
    split
    · exact length_setSlot s (i + 1) (some t)
    · split
      · exact length_setSlot s (i - 1) (some t)
      · rw [length_setSlot]
        split
        · unfold shift_right
          exact length_shift_right_go _ s _ _
        · unfold shift_left
          exact length_shift_left_go _ s _ _

/-! ### Reading slots through take and drop -/

theorem slotAt_take_lt (l : Items) (n : Nat) (p : Int) (h0 : 0 ≤ p) (h1 : p < (n : Int)) :
    slotAt (l.take n) p = slotAt l p := by
  unfold slotAt
  rw [if_pos h0, if_pos h0, List.getD_eq_getElem?_getD, List.getD_eq_getElem?_getD,
    List.getElem?_take, if_pos (by omega : p.toNat < n)]

theorem slotAt_drop (l : Items) (k : Nat) (p : Int) (h0 : 0 ≤ p) :
    slotAt (l.drop k) p = slotAt l ((k : Int) + p) := by
  unfold slotAt
  rw [if_pos h0, if_pos (by omega), List.getD_eq_getElem?_getD, List.getD_eq_getElem?_getD,
    List.getElem?_drop]
  rw [show ((k : Int) + p).toNat = k + p.toNat by omega]

theorem mem_vals_take (s : Items) (k : Nat) (x : Int) (h : x ∈ vals (s.take k)) :
    ∃ p : Int, 0 ≤ p ∧ p < (k : Int) ∧ slotAt s p = some x := by
  obtain ⟨p, hp⟩ := (mem_vals _ x).mp h
  obtain ⟨hp0, hp1⟩ := slotAt_some_bounds _ p x hp
  have hl : (s.take k).length ≤ k := by
    rw [List.length_take]
    omega
  refine ⟨p, hp0, by omega, ?_⟩
  rw [← slotAt_take_lt s k p hp0 (by omega)]
  exact hp

theorem mem_vals_drop (s : Items) (k : Nat) (x : Int) (h : x ∈ vals (s.drop k)) :
    ∃ p : Int, (k : Int) ≤ p ∧ p < (s.length : Int) ∧ slotAt s p = some x := by
  obtain ⟨p, hp⟩ := (mem_vals _ x).mp h
  obtain ⟨hp0, _⟩ := slotAt_some_bounds _ p x hp
  rw [slotAt_drop s k p hp0] at hp
  obtain ⟨hq0, hq1⟩ := slotAt_some_bounds s ((k : Int) + p) x hp
  exact ⟨(k : Int) + p, by omega, hq1, hp⟩

theorem mem_vals_seg (s : Items) (k n : Nat) (x : Int) (h : x ∈ vals ((s.drop k).take n)) :
    ∃ p : Int, (k : Int) ≤ p ∧ p < (k : Int) + (n : Int) ∧ p < (s.length : Int) ∧
      slotAt s p = some x := by
  obtain ⟨q, hq0, hq1, hq⟩ := mem_vals_take (s.drop k) n x h
  rw [slotAt_drop s k q hq0] at hq
  obtain ⟨hb0, hb1⟩ := slotAt_some_bounds s ((k : Int) + q) x hq
  exact ⟨(k : Int) + q, by omega, by omega, hb1, hq⟩

/-! ### Writing into the middle of an append -/

theorem setSlot_middle (A B : Items) (x y : Option Int) (i : Int)
    (hi : i = (A.length : Int)) :
    setSlot (A ++ x :: B) i y = A ++ y :: B := by
  unfold setSlot
  rw [if_pos (by omega)]
  have hN : i.toNat = A.length := by omega
  rw [hN, List.set_append, if_neg (by omega), Nat.sub_self, List.set_cons_zero]

/-! ### Sortedness via an insertion point in the value sequence -/

theorem pairwise_insert_mid (A B : List Int) (t : Int)
    (h : (A ++ B).Pairwise (fun a b => a < b))
    (hA : ∀ x ∈ A, x < t) (hB : ∀ y ∈ B, t < y) :
    (A ++ t :: B).Pairwise (fun a b => a < b) := by
  rw [List.pairwise_append] at h ⊢
  obtain ⟨h1, h2, h3⟩ := h
  refine ⟨h1, ?_, ?_⟩
  · rw [List.pairwise_cons]
    exact ⟨hB, h2⟩
  · intro a ha b hb
    rcases List.mem_cons.mp hb with rfl | hb2
    · exact hA a ha
    · exact h3 a ha b hb2

theorem sorted_of_parts (s r : Items) (t : Int) (A B : List Int)
    (hs : sortedStore s) (hvs : vals s = A ++ B) (hvr : vals r = A ++ t :: B)
    (hA : ∀ x ∈ A, x < t) (hB : ∀ y ∈ B, t < y) : sortedStore r := by
  rw [sorted_iff_pairwise] at hs ⊢
  rw [hvs] at hs
  rw [hvr]
  exact pairwise_insert_mid A B t hs hA hB

/-! ### An underfull window yields an empty slot somewhere in the store -/

theorem block_gap (s : Items) (b e : Int) (hb : 0 ≤ b) (hbe : b ≤ e)
    (he : e ≤ (s.length : Int)) (h : count_items s b e < (e - b).toNat) :
    ∃ p : Int, 0 ≤ p ∧ p < (s.length : Int) ∧ slotAt s p = none := by
  apply exists_empty_slot
  rw [vals_length_eq_count_full]
  rw [count_items_split s 0 e (s.length : Int) (by omega) (by omega) he]
  rw [count_items_split s 0 b e (by omega) hb hbe]
  have h1 := count_items_le s 0 b
  have h2 := count_items_le s e (s.length : Int)
  omega

/-! ### Value-sequence surgery around an empty slot -/

theorem vals_drop_none (s : Items) (m : Nat) (hm : m < s.length)
    (h : slotAt s (m : Int) = none) :
    vals (s.drop m) = vals (s.drop (m + 1)) := by
  rw [slotAt_ofNat] at h
  rw [List.getD_eq_getElem?_getD, List.getElem?_eq_getElem hm] at h
  have hg : s[m] = none := by simpa using h
  rw [List.drop_eq_getElem_cons hm, hg, vals_cons_none]

theorem vals_split_at_none (s : Items) (g : Int) (hg0 : 0 ≤ g) (hg1 : g < (s.length : Int))
    (hgap : slotAt s g = none) :
    vals s = vals (s.take g.toNat) ++ vals (s.drop (g.toNat + 1)) := by
  conv_lhs => rw [← List.take_append_drop g.toNat s]
  rw [vals_append]
  congr 1
  apply vals_drop_none s g.toNat (by omega)
  rw [slotAt_ofNat, slotAt_toNat s g hg0]
  exact hgap

theorem vals_drop_split (s : Items) (k n : Nat) :
    vals (s.drop k) = vals ((s.drop k).take n) ++ vals (s.drop (k + n)) := by
  conv_lhs => rw [← List.take_append_drop n (s.drop k)]
  rw [vals_append, List.drop_drop]

/-! ### Closed forms of the two shifting insertion paths -/

theorem insert_right_form (s : Items) (t g f : Int)
    (hf0 : 0 ≤ f) (hfg : f ≤ g) (hg1 : g < (s.length : Int))
    (hgap : slotAt s g = none) :
    setSlot (shift_right s f g) f (some t) =
      s.take f.toNat ++ some t ::
        ((s.drop f.toNat).take (g - f).toNat ++ s.drop (g.toNat + 1)) := by
  set n := (g - f).toNat with hn
  have hni : (n : Int) = g - f := by omega
  have hgf : g = f + (n : Int) := by omega
  have hsr : shift_right s f g =
      s.take f.toNat ++ slotAt s (f + (n : Int)) ::
        ((s.drop f.toNat).take n ++ s.drop (f.toNat + n + 1)) := by
    have hchar := shift_right_go_char n s f hf0 (by omega)
    unfold shift_right
    rw [hgf]
    rw [show (f + (n : Int) - f).toNat = n by omega]
    exact hchar
  rw [hsr, ← hgf, hgap]
  have hlt : (s.take f.toNat).length = f.toNat := by
    rw [List.length_take]
    omega
  rw [setSlot_middle _ _ none (some t) f (by rw [hlt]; omega)]
  rw [show f.toNat + n + 1 = g.toNat + 1 by omega]

theorem insert_left_form (s : Items) (t g f : Int)
    (hg0 : 0 ≤ g) (hgf : g ≤ f) (hf1 : f < (s.length : Int))
    (hgap : slotAt s g = none) :
    setSlot (shift_left s f g) f (some t) =
      (s.take g.toNat ++ (s.drop (g.toNat + 1)).take (f - g).toNat) ++
        some t :: s.drop (f.toNat + 1) := by
  set n := (f - g).toNat with hn
  have hni : (n : Int) = f - g := by omega
  have hgf2 : g = f - (n : Int) := by omega
  have hsl : shift_left s f g =
      s.take g.toNat ++
        ((s.drop (g.toNat + 1)).take n ++ slotAt s g :: s.drop (f.toNat + 1)) := by
    have hchar := shift_left_go_char n s f (by omega) hf1
    rw [← hgf2] at hchar
    unfold shift_left
    rw [← hn]
    exact hchar
  rw [hsl, hgap]
  rw [show s.take g.toNat ++
      ((s.drop (g.toNat + 1)).take n ++ none :: s.drop (f.toNat + 1)) =
      (s.take g.toNat ++ (s.drop (g.toNat + 1)).take n) ++ none :: s.drop (f.toNat + 1) from by
    rw [List.append_assoc]]
  have hlen2 : f = (((s.take g.toNat ++ (s.drop (g.toNat + 1)).take n)).length : Int) := by
    rw [List.length_append, List.length_take, List.length_take, List.length_drop]
    push_cast
    omega
  rw [setSlot_middle _ _ none (some t) f hlen2]

/-! ### insert places the new value at its sorted position -/

theorem insert_spec (s : Items) (t i : Int)
    (hs : sortedStore s) (hi0 : 0 ≤ i) (hi1 : i < (s.length : Int))
    (hpost : iPost s t i) (hmem : t ∉ vals s)
    (hempty : ∃ p : Int, 0 ≤ p ∧ p < (s.length : Int) ∧ slotAt s p = none) :
    sortedStore (pma.insert s t i) ∧ (pma.insert s t i).length = s.length := by
  refine ⟨?_, length_insert s t i⟩
  have hpost2 : ((∀ p v, slotAt s p = some v → p < i → v < t) ∧
      (∀ p v, slotAt s p = some v → i ≤ p → t < v)) ∨
      (i = (s.length : Int) - 1 ∧ ∀ p v, slotAt s p = some v → v < t) := by
    rcases hpost with h1 | h2 | h3
    · exact absurd ((mem_vals s t).mpr ⟨i, h1⟩) hmem
    · exact Or.inl h2
    · exact Or.inr h3
  have hiN : (i.toNat : Int) = i := by omega
  unfold pma.insert
  rcases hslot : slotAt s i with _ | v
  · -- the probed slot is empty: write in place
    show sortedStore (setSlot s i (some t))
    have hset : setSlot s i (some t) = s.set i.toNat (some t) := by
      unfold setSlot
      rw [if_pos hi0]
    rw [hset]
    apply sorted_of_parts s _ t (vals (s.take i.toNat)) (vals (s.drop (i.toNat + 1))) hs
    · exact vals_split_at_none s i hi0 hi1 hslot
    · exact vals_set_some s i.toNat (by omega) t
    · intro x hx
      obtain ⟨p, hp0, hp1, hp⟩ := mem_vals_take s i.toNat x hx
      rcases hpost2 with ⟨hL, _⟩ | ⟨_, hall⟩
      · exact hL p x hp (by omega)
      · exact hall p x hp
    · intro y hy
      obtain ⟨p, hp0, hp1, hp⟩ := mem_vals_drop s (i.toNat + 1) y hy
      rcases hpost2 with ⟨_, hR⟩ | ⟨hE, _⟩
      · exact hR p y hp (by push_cast at hp0; omega)
      · exfalso
        push_cast at hp0
        omega
  · -- the probed slot is occupied by v
    have hocc : (slotAt s i).isSome := by rw [hslot]; rfl
    obtain ⟨hcg0, hcg1, hcgap, hcR, hcL⟩ := closest_gap_spec s i hi0 hi1 hocc hempty
    show sortedStore (if v < t ∧ i + 1 < (s.length : Int) ∧ (slotAt s (i+1)).isNone then
        setSlot s (i+1) (some t)
      else if t < v ∧ 0 ≤ i - 1 ∧ (slotAt s (i-1)).isNone then
        setSlot s (i-1) (some t)
      else
        let g := pma.closest_gap s i
        let i2 := if (g.2 ∧ v < t) ∨ (¬ g.2 ∧ t < v) then (if g.2 then i + 1 else i - 1) else i
        let s2 := if g.2 then shift_right s i2 g.1 else shift_left s i2 g.1
        setSlot s2 i2 (some t))
    by_cases hc1 : v < t ∧ i + 1 < (s.length : Int) ∧ (slotAt s (i+1)).isNone
    · exfalso
      rcases hpost2 with ⟨_, hR⟩ | ⟨hE, _⟩
      · exact absurd hc1.1 (asymm (hR i v hslot (le_refl i)))
      · omega
    · rw [if_neg hc1]
      by_cases hc2 : t < v ∧ 0 ≤ i - 1 ∧ (slotAt s (i-1)).isNone
      · -- fast path: the slot immediately to the left is free
        rw [if_pos hc2]
        obtain ⟨hL, hR⟩ : (∀ p v, slotAt s p = some v → p < i → v < t) ∧
            (∀ p v, slotAt s p = some v → i ≤ p → t < v) := by
          rcases hpost2 with h | ⟨_, hall⟩
          · exact h
          · exact absurd hc2.1 (asymm (hall i v hslot))
        have hprev : slotAt s (i - 1) = none := Option.isNone_iff_eq_none.mp hc2.2.2
        have hset : setSlot s (i-1) (some t) = s.set (i-1).toNat (some t) := by
          unfold setSlot
          rw [if_pos (by omega)]
        rw [hset]
        apply sorted_of_parts s _ t (vals (s.take (i-1).toNat))
          (vals (s.drop ((i-1).toNat + 1))) hs
        · exact vals_split_at_none s (i-1) (by omega) (by omega) hprev
        · exact vals_set_some s (i-1).toNat (by omega) t
        · intro x hx
          obtain ⟨p, hp0, hp1, hp⟩ := mem_vals_take s (i-1).toNat x hx
          exact hL p x hp (by omega)
        · intro y hy
          obtain ⟨p, hp0, hp1, hp⟩ := mem_vals_drop s ((i-1).toNat + 1) y hy
          exact hR p y hp (by push_cast at hp0; omega)
      · -- slow path: shift a run of occupied slots into the closest gap
        rw [if_neg hc2]
        dsimp only
        rcases hpost2 with ⟨hL, hR⟩ | ⟨hE, hall⟩
        · -- split case: everything left of i is below t, everything from i on is above
          have htv : t < v := hR i v hslot (le_refl i)
          cases hg2 : (pma.closest_gap s i).2 with
          | false =>
            obtain ⟨hgi, _⟩ := hcL hg2
            have hOr : (false = true ∧ v < t) ∨ (¬ (false = true) ∧ t < v) :=
              Or.inr ⟨by simp, htv⟩
            rw [if_pos hOr]
            have hcf : ¬ (false = true) := by simp
            rw [if_neg hcf, if_neg hcf]
            set c := (pma.closest_gap s i).1 with hc
            rw [insert_left_form s t c (i - 1) hcg0 (by omega) (by omega) hcgap]
            set m := ((i - 1) - c).toNat with hm
            have hmi : (m : Int) = i - 1 - c := by omega
            apply sorted_of_parts s _ t
              (vals (s.take c.toNat) ++ vals ((s.drop (c.toNat + 1)).take m))
              (vals (s.drop ((i-1).toNat + 1))) hs
            · rw [vals_split_at_none s c hcg0 (by omega) hcgap]
              rw [vals_drop_split s (c.toNat + 1) m]
              rw [show c.toNat + 1 + m = (i-1).toNat + 1 by omega]
              rw [List.append_assoc]
            · rw [vals_append, vals_append, vals_cons_some]
            · intro x hx
              rcases List.mem_append.mp hx with hx1 | hx2
              · obtain ⟨p, hp0, hp1, hp⟩ := mem_vals_take s c.toNat x hx1
                exact hL p x hp (by omega)
              · obtain ⟨p, hp0, hp1, _, hp⟩ := mem_vals_seg s (c.toNat + 1) m x hx2
                exact hL p x hp (by push_cast at hp0 hp1; omega)
            · intro y hy
              obtain ⟨p, hp0, hp1, hp⟩ := mem_vals_drop s ((i-1).toNat + 1) y hy
              exact hR p y hp (by push_cast at hp0; omega)
          | true =>
            obtain ⟨hgi, _⟩ := hcR hg2
            have hnc : ¬ ((true = true ∧ v < t) ∨ (¬ (true = true) ∧ t < v)) := by
              rintro (⟨_, hvt⟩ | ⟨hnt, _⟩)
              · exact absurd hvt (asymm htv)
              · exact hnt rfl
            rw [if_neg hnc]
            rw [if_pos rfl]
            set c := (pma.closest_gap s i).1 with hc
            rw [insert_right_form s t c i hi0 (by omega) hcg1 hcgap]
            set m := (c - i).toNat with hm
            have hmi : (m : Int) = c - i := by omega
            apply sorted_of_parts s _ t (vals (s.take i.toNat))
              (vals ((s.drop i.toNat).take m) ++ vals (s.drop (c.toNat + 1))) hs
            · conv_lhs => rw [← List.take_append_drop i.toNat s]
              rw [vals_append]
              congr 1
              rw [vals_drop_split s i.toNat m]
              rw [show i.toNat + m = c.toNat by omega]
              rw [vals_drop_none s c.toNat (by omega) (by rw [show ((c.toNat : Nat) : Int) = c by omega]; exact hcgap)]
            · rw [vals_append, vals_cons_some, vals_append]
            · intro x hx
              obtain ⟨p, hp0, hp1, hp⟩ := mem_vals_take s i.toNat x hx
              exact hL p x hp (by omega)
            · intro y hy
              rcases List.mem_append.mp hy with hy1 | hy2
              · obtain ⟨p, hp0, hp1, _, hp⟩ := mem_vals_seg s i.toNat m y hy1
                exact hR p y hp (by push_cast at hp0; omega)
              · obtain ⟨p, hp0, hp1, hp⟩ := mem_vals_drop s (c.toNat + 1) y hy2
                exact hR p y hp (by push_cast at hp0; omega)
        · -- run-off-the-end case: every occupied value is below t, i is the last index
          have hvt : v < t := hall i v hslot
          cases hg2 : (pma.closest_gap s i).2 with
          | true =>
            exfalso
            obtain ⟨hgi, _⟩ := hcR hg2
            omega
          | false =>
            obtain ⟨hgi, _⟩ := hcL hg2
            have hnc : ¬ ((false = true ∧ v < t) ∨ (¬ (false = true) ∧ t < v)) := by
              rintro (⟨hf, _⟩ | ⟨_, htv⟩)
              · exact absurd hf (by simp)
              · exact absurd htv (asymm hvt)
            rw [if_neg hnc]
            have hcf : ¬ (false = true) := by simp
            rw [if_neg hcf]
            set c := (pma.closest_gap s i).1 with hc
            rw [insert_left_form s t c i hcg0 (by omega) hi1 hcgap]
            set m := (i - c).toNat with hm
            have hmi : (m : Int) = i - c := by omega
            apply sorted_of_parts s _ t
              (vals (s.take c.toNat) ++ vals ((s.drop (c.toNat + 1)).take m))
              (vals (s.drop (i.toNat + 1))) hs
            · rw [vals_split_at_none s c hcg0 (by omega) hcgap]
              rw [vals_drop_split s (c.toNat + 1) m]
              rw [show c.toNat + 1 + m = i.toNat + 1 by omega]
              rw [List.append_assoc]
            · rw [vals_append, vals_append, vals_cons_some]
            · intro x hx
              rcases List.mem_append.mp hx with hx1 | hx2
              · obtain ⟨p, hp0, hp1, hp⟩ := mem_vals_take s c.toNat x hx1
                exact hall p x hp
              · obtain ⟨p, hp0, hp1, _, hp⟩ := mem_vals_seg s (c.toNat + 1) m x hx2
                exact hall p x hp
            · intro y hy
              exfalso
              obtain ⟨p, hp0, hp1, hp⟩ := mem_vals_drop s (i.toNat + 1) y hy
              push_cast at hp0
              omega

/-! ### Sortedness is preserved by clearing a slot and by value-preserving maps -/

theorem sorted_of_vals_eq (s r : Items) (h : vals r = vals s) (hs : sortedStore s) :
    sortedStore r := by
  rw [sorted_iff_pairwise] at hs ⊢
  rw [h]
  exact hs

theorem vals_setSlot_none_sublist (s : Items) (i : Int) :
    (vals (setSlot s i none)).Sublist (vals s) := by
  unfold setSlot
  split
  · rcases le_or_lt s.length i.toNat with hge | hlt
    · rw [List.set_eq_of_length_le hge]
    · rw [List.set_eq_take_cons_drop none hlt]
      conv_rhs => rw [← List.take_append_drop i.toNat s]
      conv_rhs => rw [List.drop_eq_getElem_cons hlt]
      rw [vals_append, vals_append, vals_cons_none]
      apply List.Sublist.append_left
      rcases hv : s[i.toNat] with _ | x
      · rw [vals_cons_none]
      · rw [vals_cons_some]
        exact List.sublist_cons_self x _
  · exact List.Sublist.refl _

theorem sorted_setSlot_none (s : Items) (i : Int) (hs : sortedStore s) :
    sortedStore (setSlot s i none) := by
  rw [sorted_iff_pairwise] at hs ⊢
  exact List.Pairwise.sublist (vals_setSlot_none_sublist s i) hs

/-! ### The leaf window of push and remove is a legal scan argument -/

theorem leaf_winOK (chunk : Nat) (s : Items) (i : Int) (hc : 0 < chunk)
    (hcap : capShape chunk s) (hi0 : 0 ≤ i) (hi1 : i < (s.length : Int)) :
    winOK chunk s ((i / (chunk : Int)) * (chunk : Int))
      ((i / (chunk : Int)) * (chunk : Int) + (chunk : Int)) (tree_height chunk s - 1) := by
  obtain ⟨hh, hh1, hlen⟩ := hcap
  have hth : tree_height chunk s = hh := tree_height_eq chunk s hh hc hlen
  have hcz : (0 : Int) < (chunk : Int) := by exact_mod_cast hc
  set b := (i / (chunk : Int)) * (chunk : Int) with hb
  have hb0 : 0 ≤ b := mul_nonneg (Int.ediv_nonneg hi0 (le_of_lt hcz)) (le_of_lt hcz)
  have hlenI : (s.length : Int) = (chunk : Int) * 2 ^ hh := by
    rw [hlen]
    push_cast
    ring
  have hdivlt : i / (chunk : Int) < 2 ^ hh := by
    rw [Int.ediv_lt_iff_lt_mul hcz]
    rw [hlenI] at hi1
    linarith [hi1]
  have hbe : b + (chunk : Int) ≤ (s.length : Int) := by
    have h1 : i / (chunk : Int) + 1 ≤ 2 ^ hh := Int.lt_iff_add_one_le.mp hdivlt
    have h2 : (i / (chunk : Int) + 1) * (chunk : Int) ≤ 2 ^ hh * (chunk : Int) :=
      mul_le_mul_of_nonneg_right h1 (le_of_lt hcz)
    calc b + (chunk : Int) = (i / (chunk : Int) + 1) * (chunk : Int) := by rw [hb]; ring
      _ ≤ 2 ^ hh * (chunk : Int) := h2
      _ = (s.length : Int) := by rw [hlenI]; ring
  refine ⟨hc, hb0, by omega, ?_, hbe, ?_, ⟨hh, hh1, hlen⟩⟩
  · rw [show b + (chunk : Int) - b = (chunk : Int) by ring]
    exact ⟨i / (chunk : Int), by rw [hb]; ring⟩
  · rw [hth, show b + (chunk : Int) - b = (chunk : Int) by ring,
      show hh - 1 + 1 = hh by omega]
    exact hlenI.symm

/-! ### The depth argument of push and remove equals the full tree height -/

theorem upper_t_at_height (chunk : Nat) (s : Items) (hh : Nat) (hc : 0 < chunk) (hh1 : 1 ≤ hh)
    (hlen : s.length = chunk * 2 ^ hh) :
    upper_t chunk s (tree_height chunk s) = 1 := by
  unfold upper_t
  rw [tree_height_eq chunk s hh hc hlen]
  have hne : (hh : ℚ) ≠ 0 := by
    have : 0 < hh := hh1
    positivity
  rw [div_self hne]
  norm_num

/-! ### push and remove preserve ordering and the capacity shape -/

theorem push_good (chunk : Nat) (s : Items) (t : Int) (hc : 0 < chunk)
    (hsort : sortedStore s) (hcap : capShape chunk s) (hmem : t ∉ vals s) :
    sortedStore (pma.push chunk s t) ∧ capShape chunk (pma.push chunk s t) := by
  obtain ⟨hh, hh1, hlen⟩ := hcap
  have hlen0 : 0 < s.length := by rw [hlen]; positivity
  have hib := pma_index_of_bounds s t hlen0
  unfold pma.push
  dsimp only
  set i := pma.index_of s t with hi
  set bb := (i / (chunk : Int)) * (chunk : Int) with hbb
  set be := bb + (chunk : Int) with hbe
  set cnt := count_items s bb be + 1 with hcnt
  have hwin : winOK chunk s bb be (tree_height chunk s - 1) :=
    leaf_winOK chunk s i hc ⟨hh, hh1, hlen⟩ hib.1 hib.2
  by_cases hd : ((cnt : Nat) : ℚ) / ((be - bb : Int) : ℚ) >
      upper_t chunk s (tree_height chunk s)
  · rw [if_pos hd]
    obtain ⟨hv2, hcap2, hnotfull⟩ :=
      scan_good chunk (tree_height chunk s - 1) s bb be cnt hwin (by omega)
    set s2 := pma.scan chunk (tree_height chunk s - 1) s bb be cnt with hs2
    have hsort2 : sortedStore s2 := sorted_of_vals_eq s s2 hv2 hsort
    obtain ⟨hh2, hh21, hlen2⟩ := hcap2
    have hlen20 : 0 < s2.length := by rw [hlen2]; positivity
    have hib2 := pma_index_of_bounds s2 t hlen20
    have hpost2 := index_of_post s2 t hsort2 hlen20
    have hmem2 : t ∉ vals s2 := by rw [hv2]; exact hmem
    obtain ⟨hso, hle⟩ := insert_spec s2 t (pma.index_of s2 t) hsort2 hib2.1 hib2.2
      hpost2 hmem2 (exists_empty_slot s2 hnotfull)
    exact ⟨hso, ⟨hh2, hh21, by rw [hle]; exact hlen2⟩⟩
  · rw [if_neg hd]
    push_neg at hd
    rw [upper_t_at_height chunk s hh hc hh1 hlen] at hd
    have hbeb : be - bb = (chunk : Int) := by rw [hbe]; ring
    rw [hbeb] at hd
    have hcnt_le : count_items s bb be + 1 ≤ chunk := by
      by_contra hcon
      push_neg at hcon
      have hcq : (((chunk : Int)) : ℚ) < (cnt : ℚ) := by
        have h2 : (chunk : Int) < (cnt : Int) := by omega
        exact_mod_cast h2
      have h1 : (1 : ℚ) < (cnt : ℚ) / (((chunk : Int)) : ℚ) := by
        rw [lt_div_iff (by exact_mod_cast hc)]
        linarith
      linarith
    have hempty := block_gap s bb be hwin.2.1 (by omega) hwin.2.2.2.2.1
      (by rw [hbeb]; omega)
    obtain ⟨hso, hle⟩ := insert_spec s t i hsort hib.1 hib.2
      (index_of_post s t hsort hlen0) hmem hempty
    exact ⟨hso, ⟨hh, hh1, by rw [hle]; exact hlen⟩⟩

theorem remove_good (chunk : Nat) (s : Items) (t : Int) (hc : 0 < chunk)
    (hsort : sortedStore s) (hcap : capShape chunk s) :
    sortedStore (pma.remove chunk s t) ∧ capShape chunk (pma.remove chunk s t) := by
  obtain ⟨hh, hh1, hlen⟩ := hcap
  have hlen0 : 0 < s.length := by rw [hlen]; positivity
  have hib := pma_index_of_bounds s t hlen0
  unfold pma.remove
  dsimp only
  set i := pma.index_of s t with hi
  by_cases hfound : (slotAt s i).isNone ∨ ¬ ((slotAt s i).getD 0 = t)
  · rw [if_pos hfound]
    exact ⟨hsort, ⟨hh, hh1, hlen⟩⟩
  · rw [if_neg hfound]
    set s1 := setSlot s i none with hs1
    have hsort1 : sortedStore s1 := sorted_setSlot_none s i hsort
    have hlen1 : s1.length = s.length := length_setSlot s i none
    have hcap1 : capShape chunk s1 := ⟨hh, hh1, by rw [hlen1]; exact hlen⟩
    set bb := (i / (chunk : Int)) * (chunk : Int) with hbb
    set be := bb + (chunk : Int) with hbe
    have hwin : winOK chunk s1 bb be (tree_height chunk s1 - 1) :=
      leaf_winOK chunk s1 i hc hcap1 hib.1 (by rw [hlen1]; exact hib.2)
    by_cases hd : ((count_items s1 bb be : Nat) : ℚ) / ((be - bb : Int) : ℚ) <
        lower_t chunk s1 (tree_height chunk s1)
    · rw [if_pos hd]
      obtain ⟨hv2, hcap2, _⟩ := scan_good chunk (tree_height chunk s1 - 1) s1 bb be
        (count_items s1 bb be) hwin (le_refl _)
      exact ⟨sorted_of_vals_eq s1 _ hv2 hsort1, hcap2⟩
    · rw [if_neg hd]
      exact ⟨hsort1, hcap1⟩

/-! ### Reachable stores stay sorted -/

theorem vals_mem_iff_contains (s : Items) (t : Int) :
    t ∈ vals s ↔ s.contains (some t) = true := by
  rw [show (s.contains (some t) = true) ↔ some t ∈ s from List.elem_iff]
  unfold vals
  rw [List.mem_filterMap]
  constructor
  · rintro ⟨o, ho, he⟩
    rw [id] at he
    rwa [he] at ho
  · intro h
    exact ⟨some t, h, rfl⟩

theorem emptyStore_sorted (chunk : Nat) : sortedStore (pma.emptyStore chunk) := by
  rw [sorted_iff_pairwise]
  unfold pma.emptyStore
  rw [vals_replicate]
  exact List.Pairwise.nil

theorem emptyStore_capShape (chunk : Nat) : capShape chunk (pma.emptyStore chunk) :=
  ⟨1, le_refl 1, by unfold pma.emptyStore; rw [List.length_replicate]; ring⟩

theorem runOps_good (chunk : Nat) (hc : 0 < chunk) :
    ∀ (ops : List Op) (s : Items), sortedStore s → capShape chunk s →
      validOps chunk s ops = true →
      sortedStore (runOps chunk s ops) ∧ capShape chunk (runOps chunk s ops) := by
  intro ops
  induction ops with
  | nil =>
    intro s h1 h2 _
    exact ⟨h1, h2⟩
  | cons o rest ih =>
    intro s h1 h2 hv
    cases o with
    | push v =>
      rw [validOps, Bool.and_eq_true] at hv
      have hmem : v ∉ vals s := by
        intro hcon
        rw [vals_mem_iff_contains] at hcon
        rw [hcon] at hv
        simp at hv
      obtain ⟨hs3, hc3⟩ := push_good chunk s v hc h1 h2 hmem
      rw [runOps]
      exact ih (pma.push chunk s v) hs3 hc3 hv.2
    | remove v =>
      rw [validOps] at hv
      obtain ⟨hs3, hc3⟩ := remove_good chunk s v hc h1 h2
      rw [runOps]
      exact ih (pma.remove chunk s v) hs3 hc3 hv

theorem push_eq_insert_call (chunk : Nat) (s : Items) (t : Int) :
    pma.push chunk s t =
      pma.insert (insert_call chunk s t).1 t (insert_call chunk s t).2 := by
  unfold pma.push insert_call
  dsimp only
  split
  · rfl
  · rfl

theorem insert_call_safe (chunk : Nat) (s : Items) (t : Int) (hc : 0 < chunk)
    (hsort : sortedStore s) (hcap : capShape chunk s) :
    (∃ p : Int, 0 ≤ p ∧ p < ((insert_call chunk s t).1.length : Int) ∧
      slotAt (insert_call chunk s t).1 p = none) ∧
    0 ≤ (insert_call chunk s t).2 ∧
    (insert_call chunk s t).2 < ((insert_call chunk s t).1.length : Int) := by
  obtain ⟨hh, hh1, hlen⟩ := hcap
  have hlen0 : 0 < s.length := by rw [hlen]; positivity
  have hib := pma_index_of_bounds s t hlen0
  have hwin := leaf_winOK chunk s (pma.index_of s t) hc ⟨hh, hh1, hlen⟩ hib.1 hib.2
  unfold insert_call
  dsimp only
  set i := pma.index_of s t with hi
  set bb := (i / (chunk : Int)) * (chunk : Int) with hbb
  set be := bb + (chunk : Int) with hbe
  set cnt := count_items s bb be + 1 with hcnt
  by_cases hd : ((cnt : Nat) : ℚ) / ((be - bb : Int) : ℚ) >
      upper_t chunk s (tree_height chunk s)
  · rw [if_pos hd]
    obtain ⟨hv2, hcap2, hnotfull⟩ :=
      scan_good chunk (tree_height chunk s - 1) s bb be cnt hwin (by omega)
    set s2 := pma.scan chunk (tree_height chunk s - 1) s bb be cnt with hs2
    obtain ⟨hh2, hh21, hlen2⟩ := hcap2
    have hlen20 : 0 < s2.length := by rw [hlen2]; positivity
    have hib2 := pma_index_of_bounds s2 t hlen20
    exact ⟨exists_empty_slot s2 hnotfull, hib2.1, hib2.2⟩
  · rw [if_neg hd]
    push_neg at hd
    rw [upper_t_at_height chunk s hh hc hh1 hlen] at hd
    have hbeb : be - bb = (chunk : Int) := by rw [hbe]; ring
    rw [hbeb] at hd
    have hcnt_le : count_items s bb be + 1 ≤ chunk := by
      by_contra hcon
      push_neg at hcon
      have hcq : (((chunk : Int)) : ℚ) < (cnt : ℚ) := by
        have h2 : (chunk : Int) < (cnt : Int) := by omega
        exact_mod_cast h2
      have h1 : (1 : ℚ) < (cnt : ℚ) / (((chunk : Int)) : ℚ) := by
        rw [lt_div_iff (by exact_mod_cast hc)]
        linarith
      linarith
    exact ⟨block_gap s bb be hwin.2.1 (by omega) hwin.2.2.2.2.1
      (by rw [hbeb]; omega), hib.1, hib.2⟩

/-- C9: whenever push reaches local insertion with its target slot occupied,
some slot of the backing array is empty, the symmetric outward gap search
returns an in-bounds empty slot strictly on the side its flag indicates, and
hence the subsequent shift between target and gap stays inside the array. -/
theorem claim9_gap_safety (chunk : Nat) (s : Items) (t : Int) (hc : 0 < chunk)
    (hsort : sortedStore s) (hcap : capShape chunk s)
    (hocc : (slotAt (insert_call chunk s t).1 (insert_call chunk s t).2).isSome) :
    (∃ p : Int, 0 ≤ p ∧ p < ((insert_call chunk s t).1.length : Int) ∧
      slotAt (insert_call chunk s t).1 p = none) ∧
    0 ≤ (pma.closest_gap (insert_call chunk s t).1 (insert_call chunk s t).2).1 ∧
    (pma.closest_gap (insert_call chunk s t).1 (insert_call chunk s t).2).1 <
      ((insert_call chunk s t).1.length : Int) ∧
    slotAt (insert_call chunk s t).1
      (pma.closest_gap (insert_call chunk s t).1 (insert_call chunk s t).2).1 = none ∧
    ((pma.closest_gap (insert_call chunk s t).1 (insert_call chunk s t).2).2 = true →
      (insert_call chunk s t).2 <
        (pma.closest_gap (insert_call chunk s t).1 (insert_call chunk s t).2).1) ∧
    ((pma.closest_gap (insert_call chunk s t).1 (insert_call chunk s t).2).2 = false →
      (pma.closest_gap (insert_call chunk s t).1 (insert_call chunk s t).2).1 <
        (insert_call chunk s t).2) := by
  obtain ⟨hempty, hi0, hi1⟩ := insert_call_safe chunk s t hc hsort hcap
  obtain ⟨h1, h2, h3, h4, h5⟩ := closest_gap_spec (insert_call chunk s t).1
    (insert_call chunk s t).2 hi0 hi1 hocc hempty
  exact ⟨hempty, h1, h2, h3, fun hb => (h4 hb).1, fun hb => (h5 hb).1⟩

theorem claim9_witness :
    sortedStore [some 1, some 2, none, none] ∧
    (∃ p : Int, 0 ≤ p ∧ p < ((insert_call 2 [some 1, some 2, none, none] 0).1.length : Int) ∧
      slotAt (insert_call 2 [some 1, some 2, none, none] 0).1 p = none) :=
  ⟨by decide, (claim9_gap_safety 2 [some 1, some 2, none, none] 0 (by decide) (by decide)
    ⟨1, by decide, by decide⟩ (by with_unfolding_all decide)).1⟩

/-- C1: every store reachable from the empty store by a finite sequence of
pushes of values with no equivalent occupant and removes keeps its occupied
slots, read left to right, strictly increasing. -/
theorem claim1_ordering_invariant (chunk : Nat) (ops : List Op) (hc : 0 < chunk)
    (hv : validOps chunk (pma.emptyStore chunk) ops = true) :
    sortedStore (runOps chunk (pma.emptyStore chunk) ops) :=
  (runOps_good chunk hc ops (pma.emptyStore chunk) (emptyStore_sorted chunk)
    (emptyStore_capShape chunk) hv).1

theorem claim1_witness :
    0 < 2 ∧
    validOps 2 (pma.emptyStore 2) [Op.push 5, Op.push 3, Op.remove 5, Op.push 4] = true ∧
    sortedStore (runOps 2 (pma.emptyStore 2) [Op.push 5, Op.push 3, Op.remove 5, Op.push 4]) :=
  ⟨by decide, by with_unfolding_all decide,
   claim1_ordering_invariant 2 [Op.push 5, Op.push 3, Op.remove 5, Op.push 4]
     (by decide) (by with_unfolding_all decide)⟩

/-- C8 counterexample: pushing an already-present value stores it a second
time, so two occupied slots hold equivalent items. -/
theorem claim8_counterexample :
    vals (pma.push 2 (pma.push 2 (pma.emptyStore 2) 5) 5) = [5, 5] := by
  with_unfolding_all decide

/-- C8 (amended): after any sequence of removes and pushes of values with no
equivalent occupant at push time, no two occupied slots hold equivalent items;
the claim as stated fails because a duplicate push stores the value twice. -/
theorem claim8_uniqueness_amended (chunk : Nat) (ops : List Op) (hc : 0 < chunk)
    (hv : validOps chunk (pma.emptyStore chunk) ops = true) :
    (vals (runOps chunk (pma.emptyStore chunk) ops)).Pairwise (fun a b => a ≠ b) := by
  have h := (runOps_good chunk hc ops (pma.emptyStore chunk) (emptyStore_sorted chunk)
    (emptyStore_capShape chunk) hv).1
  rw [sorted_iff_pairwise] at h
  exact h.imp (fun hlt => ne_of_lt hlt)

theorem claim8_witness :
    0 < 2 ∧ validOps 2 (pma.emptyStore 2) [Op.push 7, Op.push 2] = true ∧
    (vals (runOps 2 (pma.emptyStore 2) [Op.push 7, Op.push 2])).Pairwise
      (fun a b => a ≠ b) :=
  ⟨by decide, by with_unfolding_all decide,
   claim8_uniqueness_amended 2 [Op.push 7, Op.push 2] (by decide)
     (by with_unfolding_all decide)⟩

/-- C2: packed_memory_array::remove of an absent value is a no-op, but
OrderedVector::remove — the version file_handler.cpp instantiates — mutates the
store when the probed slot is empty: with items 5 and 10 stored at slots 3 and
9 of a 16-slot array, removing the absent 7 falls through the early return and
the subsequent scan rearranges the array. -/
theorem claim2_remove_absent (chunk : Nat) (s : Items) (t : Int)
    (habs : some t ∉ s) :
    pma.remove chunk s t = s ∧
    ((some 7 ∉ ([none, none, none, some 5, none, none, none, none,
        none, some 10, none, none, none, none, none, none] : Items)) ∧
      OV.remove 8 [none, none, none, some 5, none, none, none, none,
        none, some 10, none, none, none, none, none, none] 7 ≠
      [none, none, none, some 5, none, none, none, none,
        none, some 10, none, none, none, none, none, none]) := by
  constructor
  · unfold pma.remove
    dsimp only
    rcases hslot : slotAt s (pma.index_of s t) with _ | v
    · rw [if_pos]
      left
      rfl
    · rw [if_pos]
      right
      intro hcon
      rw [Option.getD_some] at hcon
      apply habs
      have hst : slotAt s (pma.index_of s t) = some t := by rw [hslot, hcon]
      have hmem : t ∈ vals s := (mem_vals s t).mpr ⟨pma.index_of s t, hst⟩
      unfold vals at hmem
      obtain ⟨o, ho, he⟩ := List.mem_filterMap.mp hmem
      rw [id] at he
      rwa [he] at ho
  · exact ⟨by decide, by with_unfolding_all decide⟩

theorem claim2_witness :
    ((some 3 : Option Int) ∉ ([some 1, none, none, none] : Items)) ∧
    pma.remove 2 [some 1, none, none, none] 3 = [some 1, none, none, none] :=
  ⟨by decide, (claim2_remove_absent 2 [some 1, none, none, none] 3 (by decide)).1⟩

/-- C3 counterexample: OrderedVector::scan at depth 0 never halves the
capacity: a store holding one item at density 1/8 < lower(0) = 1/2 with
capacity 8 > 2 * leaf_size = 4 keeps capacity 8 instead of halving to 4. -/
theorem claim3_counterexample :
    ((count_items [some 1, none, none, none, none, none, none, none] 0 8 : ℚ) /
        ((8 : Int) : ℚ) <
      lower_t 2 [some 1, none, none, none, none, none, none, none] 0) ∧
    ([some 1, none, none, none, none, none, none, none] : Items).length > 2 * 2 ∧
    (OV.scan 2 0 [some 1, none, none, none, none, none, none, none] 0 8).length =
      ([some 1, none, none, none, none, none, none, none] : Items).length := by
  with_unfolding_all decide

/-- C3 (amended to packed_memory_array::scan, whose depth-0 branch matches the
spec): on reaching depth 0 with density outside the depth-0 thresholds, scan
collects every item of the whole array, doubles the capacity exactly when
density > upper(0), halves it exactly when density < lower(0) and the capacity
exceeds 2 * chunk_size, and redistributes all collected items; OrderedVector's
depth-0 scan never halves, as the counterexample shows. -/
theorem claim3_root_resize_amended (chunk : Nat) (s : Items) (b e : Int) (accum : Nat)
    (hok : winOK chunk s b e 0) (hacc : count_items s b e ≤ accum)
    (hout : ¬ (lower_t chunk s 0 ≤ pma.scan_density s b e accum ∧
        pma.scan_density s b e accum ≤ upper_t chunk s 0)) :
    vals (pma.scan chunk 0 s b e accum) = vals s ∧
    (pma.scan chunk 0 s b e accum).length =
      (if pma.scan_density s b e accum > upper_t chunk s 0 then 2 * s.length
       else if pma.scan_density s b e accum < lower_t chunk s 0 ∧
           s.length > chunk * 2 then s.length / 2
       else s.length) := by
  rw [pma.scan, if_neg hout]
  obtain ⟨h1, h2, _, _⟩ := scan_root_spec chunk s b e accum hok hacc hout
  exact ⟨h1, h2⟩

theorem claim3_witness :
    winOK 2 [some 1, none, none, none, none, none, none, none] 0 4 0 ∧
    vals (pma.scan 2 0 [some 1, none, none, none, none, none, none, none] 0 4 1) =
      vals [some 1, none, none, none, none, none, none, none] ∧
    (pma.scan 2 0 [some 1, none, none, none, none, none, none, none] 0 4 1).length = 4 := by
  have hok : winOK 2 [some 1, none, none, none, none, none, none, none] 0 4 0 :=
    ⟨by decide, by decide, by decide, ⟨0, by decide⟩, by decide, by decide,
     ⟨2, by decide, by decide⟩⟩
  have h := claim3_root_resize_amended 2 [some 1, none, none, none, none, none, none, none]
    0 4 1 hok (by decide) (by with_unfolding_all decide)
  refine ⟨hok, h.1, ?_⟩
  rw [h.2]
  with_unfolding_all decide

/-- C10: the leaf window push and remove hand to scan is a legal window at
depth tree_height - 1; the parent window scan recurses on stays legal one
depth up; and every legal window is aligned, at most half the capacity wide,
with its sibling and parent windows entirely inside [0, capacity). -/
theorem claim10_scan_window_bounds (chunk : Nat) (s : Items) (i : Int)
    (hc : 0 < chunk) (hcap : capShape chunk s) (hi0 : 0 ≤ i)
    (hi1 : i < (s.length : Int)) :
    winOK chunk s ((i / (chunk : Int)) * (chunk : Int))
      ((i / (chunk : Int)) * (chunk : Int) + (chunk : Int)) (tree_height chunk s - 1) ∧
    (∀ b e d, winOK chunk s b e (d + 1) →
      winOK chunk s (pma.par_begin b e) (pma.par_end b e) d) ∧
    (∀ b e d, winOK chunk s b e d →
      (e - b) * 2 ≤ (s.length : Int) ∧ (e - b) ∣ b ∧
      0 ≤ pma.sib_begin b e ∧ pma.sib_begin b e + (e - b) ≤ (s.length : Int) ∧
      0 ≤ pma.par_begin b e ∧ pma.par_end b e ≤ (s.length : Int)) := by
  refine ⟨leaf_winOK chunk s i hc hcap hi0 hi1,
    fun b e d h => winOK_succ chunk s b e d h, ?_⟩
  intro b e d h
  obtain ⟨m1, m2, _, _, m5, m6, _, _, _⟩ := winOK_main chunk s b e d h
  refine ⟨?_, h.2.2.2.1, m1, m2, m5, m6⟩
  have hw : 0 < e - b := lt_of_lt_of_le (by exact_mod_cast h.1) h.2.2.1
  have hp := h.2.2.2.2.2.1
  have h2 : (2 : Int) ≤ 2 ^ (d + 1) := by
    calc (2 : Int) = 2 ^ 1 := by norm_num
      _ ≤ 2 ^ (d + 1) := pow_le_pow_right (by norm_num) (by omega)
  calc (e - b) * 2 ≤ (e - b) * 2 ^ (d + 1) :=
        mul_le_mul_of_nonneg_left h2 (le_of_lt hw)
    _ = (s.length : Int) := hp

theorem claim10_witness :
    0 < 2 ∧
    winOK 2 [some 1, none, none, none] (((1 : Int) / (2 : Int)) * (2 : Int))
      (((1 : Int) / (2 : Int)) * (2 : Int) + (2 : Int))
      (tree_height 2 [some 1, none, none, none] - 1) :=
  ⟨by decide, (claim10_scan_window_bounds 2 [some 1, none, none, none] 1 (by decide)
    ⟨1, by decide, by decide⟩ (by decide) (by decide)).1⟩

/-- C7 counterexample: OrderedVector::rearrange_items spreads 3 items over a
width-16 window at offsets 0, 1 and 6, not at the round-formula offsets
0, 5 and 11: the second item lands at offset 1 while round(1 * 16/3) = 5, and
zero empty slots separate the first two items although the claim promises at
least floor(16/3) - 1 = 4. -/
theorem claim7_counterexample :
    OV.rearrange_items
      [some 1, some 2, some 3, none, none, none, none, none, none, none, none,
       none, none, none, none, none] 0 16 =
      [some 1, some 2, none, none, none, none, some 3, none, none, none, none,
       none, none, none, none, none] ∧
    roundQ ((1 : ℚ) * (((16 : Nat) : ℚ) / ((3 : Nat) : ℚ))) = 5 ∧
    slotAt (OV.rearrange_items
      [some 1, some 2, some 3, none, none, none, none, none, none, none, none,
       none, none, none, none, none] 0 16) 5 = none ∧
    slotAt (OV.rearrange_items
      [some 1, some 2, some 3, none, none, none, none, none, none, none, none,
       none, none, none, none, none] 0 16) 1 = some 2 ∧
    ((16 / 3 : Nat) : Int) - 1 = 4 := by
  with_unfolding_all decide
